import Mathlib

/-!
Verification development for the ModelGate build scheduler
(`smctl-build/src/lib.rs` together with the manifest data model of
`smctl-workspace/src/lib.rs`).

The Rust code is shallowly embedded as executable Lean functions:

* `RepoConfig` / `WorkspaceManifest` mirror the manifest data model.
* `resolve_build_order` embeds the recursive DFS topological sort.  The
  recursion of the Rust `dfs` is bounded by an explicit fuel argument
  (`repos.length + 1`); exhausting the fuel yields the artificial error
  `BuildError.fuelExhausted`, which is proved unreachable below.
* `resolve_build_levels`, `collect_deps`, the sequential engine
  (`build`) and the parallel engine (`build_parallel`) are embedded from
  the source.  External command execution is modelled by an environment
  `Env` mapping a repository name and a command string to an outcome;
  wall-clock durations are not modelled (all duration fields are 0).
* The parallel engine's thread interleavings are modelled by a small-step
  machine over per-thread phases, driven by an explicit schedule (a list
  of thread indices); after the schedule is exhausted the remaining
  threads are run to completion, which models the join barrier.  The
  Rust code runs an optional clean command inside each worker and
  discards its result (`let _ = run_cmd(..)`); a discarded call to a
  pure environment has no observable effect, so it does not appear in
  the embedded step function.
-/

/-- One workspace member (Rust `RepoConfig` in `smctl-workspace`). -/
structure RepoConfig where
  name : String
  url : String
  path : Option String := none
  default_branch : String := "main"
  smctl_home : Bool := false
  build_cmd : Option String := none
  test_cmd : Option String := none
  clean_cmd : Option String := none
  depends_on : List String := []
deriving DecidableEq, Repr

instance : Inhabited RepoConfig := ⟨{ name := "", url := "" }⟩

/-- Rust `WorkspaceConfig`. -/
structure WorkspaceConfig where
  name : String
  root : String := "."
deriving DecidableEq, Repr

/-- Rust `WorkspaceManifest` (the flow/worktree/spec sub-configs play no
role in the build subsystem and are omitted; `workspace` is kept so that
a manifest carries data besides `repos`). -/
structure WorkspaceManifest where
  workspace : WorkspaceConfig
  repos : List RepoConfig := []
deriving DecidableEq, Repr

/-- Rust `WorkspaceManifest::find_repo`: first repo with the given name. -/
def find_repo (m : WorkspaceManifest) (name : String) : Option RepoConfig :=
  m.repos.find? (fun r => r.name == name)

/-- Rust `repos.iter().position(|r| &r.name == dep_name)`. -/
def posOf : List RepoConfig → String → Option Nat
  | [], _ => none
  | r :: rs, nm => if r.name = nm then some 0 else (posOf rs nm).map (· + 1)

/-- Build result for a single repo (Rust `BuildResult`; durations are not
modelled and are always 0). -/
structure BuildResult where
  repo_name : String
  success : Bool
  output : String
  duration_ms : Nat
deriving DecidableEq, Repr

/-- Overall build report (Rust `BuildReport`). -/
structure BuildReport where
  results : List BuildResult
  total_duration_ms : Nat
  all_passed : Bool
deriving DecidableEq, Repr

/-- Errors surfaced by the scheduler.  The Rust code uses `anyhow`
string errors; the constructors record the same data structurally.
`fuelExhausted` is an artifact of bounding the DFS recursion with fuel
and is proved unreachable. -/
inductive BuildError where
  | cycle (name : String)
  | notFound (name : String)
  | cmd (repo command stderr : String)
  | emptyCommand
  | launch (repo command : String)
  | fuelExhausted
deriving DecidableEq, Repr

/-- State of the DFS in `resolve_build_order`: the `visited` and
`in_stack` marker vectors and the accumulated postorder of indices. -/
structure DfsSt where
  visited : List Bool
  in_stack : List Bool
  order : List Nat
deriving DecidableEq, Repr

/-- The loop `for dep_name in &repos[idx].depends_on { .. }` of the Rust
`dfs`: recurse (via `next`) into every dependency name that resolves to
an index, skipping unresolvable names. -/
def goDeps (repos : List RepoConfig) (next : Nat → DfsSt → Except BuildError DfsSt) :
    List String → DfsSt → Except BuildError DfsSt
  | [], st => .ok st
  | dep :: rest, st =>
    match posOf repos dep with
    | none => goDeps repos next rest st
    | some j =>
      match next j st with
      | .error e => .error e
      | .ok st2 => goDeps repos next rest st2

/-- The recursive Rust `dfs`, with the call depth bounded by fuel.
Defined through `Nat.rec` so that it reduces definitionally on concrete
fuel values. -/
def dfsCore (repos : List RepoConfig) (fuel : Nat) : Nat → DfsSt → Except BuildError DfsSt :=
  Nat.rec (motive := fun _ => Nat → DfsSt → Except BuildError DfsSt)
    (fun _ _ => .error .fuelExhausted)
    (fun _ next idx st =>
      if st.in_stack.getD idx false then .error (.cycle ((repos.getD idx default).name))
      else if st.visited.getD idx false then .ok st
      else
        match goDeps repos next ((repos.getD idx default).depends_on)
            { st with in_stack := st.in_stack.set idx true } with
        | .error e => .error e
        | .ok st2 =>
          .ok ⟨st2.visited.set idx true, st2.in_stack.set idx false, st2.order ++ [idx]⟩)
    fuel

/-- The loop `for i in 0..repos.len() { dfs(i, ..)? }`. -/
def runAll (repos : List RepoConfig) : List Nat → DfsSt → Except BuildError DfsSt
  | [], st => .ok st
  | i :: rest, st =>
    match dfsCore repos (repos.length + 1) i st with
    | .error e => .error e
    | .ok st' => runAll repos rest st'

/-- Initial DFS state: all markers false, empty order. -/
def initSt (n : Nat) : DfsSt := ⟨List.replicate n false, List.replicate n false, []⟩

/-- Rust `resolve_build_order`, at the level of the internal index
vector `order` (the Rust code collects `Vec<usize>` and maps at the
end). -/
def resolve_build_order_idx (m : WorkspaceManifest) : Except BuildError (List Nat) :=
  match runAll m.repos (List.range m.repos.length) (initSt m.repos.length) with
  | .error e => .error e
  | .ok st => .ok st.order

/-- Rust `resolve_build_order`: the index order mapped to repo records
(`order.into_iter().map(|i| &repos[i]).collect()`). -/
def resolve_build_order (m : WorkspaceManifest) : Except BuildError (List RepoConfig) :=
  match resolve_build_order_idx m with
  | .error e => .error e
  | .ok ord => .ok (ord.map (fun i => m.repos.getD i default))

/-- Rust `levels.iter().position(|lvl| lvl.iter().any(|r| r.name == *dep))`. -/
def levelIdxOf : List (List RepoConfig) → String → Option Nat
  | [], _ => none
  | lvl :: rest, dep =>
    if lvl.any (fun r => r.name == dep) then some 0 else (levelIdxOf rest dep).map (· + 1)

/-- Rust `Iterator::max` over a list of naturals. -/
def maxNat? : List Nat → Option Nat
  | [] => none
  | x :: xs =>
    match maxNat? xs with
    | none => some x
    | some mx => some (Nat.max x mx)

/-- The level computed for one repo in `resolve_build_levels`:
`deps.filter_map(position).max().map(|l| l + 1).unwrap_or(0)`. -/
def levelFor (levels : List (List RepoConfig)) (repo : RepoConfig) : Nat :=
  match maxNat? (repo.depends_on.filterMap (levelIdxOf levels)) with
  | some l => l + 1
  | none => 0

/-- One iteration of the assignment loop of `resolve_build_levels`:
`levels.resize_with(level + 1, Vec::new)` followed by
`levels[level].push(repo)`.  (The Rust `assigned` set is written but
never read and is omitted.) -/
def placeRepo (levels : List (List RepoConfig)) (repo : RepoConfig) : List (List RepoConfig) :=
  let lvl := levelFor levels repo
  let ls := if levels.length ≤ lvl then levels ++ List.replicate (lvl + 1 - levels.length) [] else levels
  ls.set lvl (ls.getD lvl [] ++ [repo])

/-- Rust `resolve_build_levels`. -/
def resolve_build_levels (m : WorkspaceManifest) : Except BuildError (List (List RepoConfig)) :=
  match resolve_build_order m with
  | .error e => .error e
  | .ok ord => .ok (ord.foldl placeRepo [])

/-- All dependency-name occurrences of the manifest; its length bounds
the number of distinct names `collect_deps` can ever record. -/
def allDepNames (m : WorkspaceManifest) : List String :=
  (m.repos.map (fun r => r.depends_on)).flatten

/-- The inner `for dep in &repo.depends_on` loop of `collect_deps`:
push every not-yet-recorded name onto both the `deps` accumulator and
the stack. -/
def collectFold (depList deps stk : List String) : List String × List String :=
  depList.foldl
    (fun (acc : List String × List String) dep =>
      if acc.1.contains dep then acc else (acc.1 ++ [dep], dep :: acc.2))
    (deps, stk)

/-- The `while let Some(current) = stack.pop()` loop of `collect_deps`. -/
def collectLoop (m : WorkspaceManifest) : Nat → List String → List String → List String
  | 0, _, deps => deps
  | fuel + 1, stack, deps =>
    match stack with
    | [] => deps
    | current :: rest =>
      match find_repo m current with
      | none => collectLoop m fuel rest deps
      | some repo =>
        let p := collectFold repo.depends_on deps rest
        collectLoop m fuel p.2 p.1

/-- Rust `collect_deps`: iterative transitive-dependency walk. -/
def collect_deps (m : WorkspaceManifest) (name : String) : List String :=
  collectLoop m ((allDepNames m).length + 2) [name] []

/-- Outcome of spawning an external command: failure to launch, or an
exit with a success flag and captured stdout/stderr. -/
inductive CmdOutcome where
  | spawnFail
  | exited (ok : Bool) (stdout stderr : String)
deriving DecidableEq, Repr

/-- The external world: what happens when a command line is run in a
given repository's directory. -/
def Env : Type := String → String → CmdOutcome

/-- Rust `run_cmd`: reject empty command lines, then spawn and interpret
the exit status.  Error messages are recorded structurally in
`BuildError`.  Rust computes `cmd.split_whitespace()` and only tests the
token list for emptiness before handing the command to the OS; the token
list is empty exactly when every character is whitespace, which is the
form used here. -/
def runCommand (env : Env) (repo : RepoConfig) (cmd : String) : Except BuildError String :=
  if cmd.data.all (fun c => c.isWhitespace) then .error .emptyCommand
  else
    match env repo.name cmd with
    | .spawnFail => .error (.launch repo.name cmd)
    | .exited true out _ => .ok out
    | .exited false _ err => .error (.cmd repo.name cmd err)

/-- Rendering of a `run_cmd` error into the `output` text of a failed
`BuildResult` (the Rust code stores `e.to_string()`). -/
def errText : BuildError → String
  | .cycle n => "circular dependency detected involving " ++ n
  | .notFound n => "repo " ++ n ++ " not found"
  | .cmd repo command stderr => repo ++ ": command " ++ command ++ " failed:\n" ++ stderr
  | .emptyCommand => "empty command"
  | .launch repo command => "failed to run " ++ command ++ " in " ++ repo
  | .fuelExhausted => "fuel exhausted"

/-- Rust `build_one_repo`. -/
def build_one_repo (env : Env) (repo : RepoConfig) : BuildResult :=
  match runCommand env repo (repo.build_cmd.getD "cargo build") with
  | .ok out => ⟨repo.name, true, out, 0⟩
  | .error e => ⟨repo.name, false, errText e, 0⟩

/-- Rust `test_one_repo` (note the " (test)" suffix on the name). -/
def test_one_repo (env : Env) (repo : RepoConfig) : BuildResult :=
  match runCommand env repo (repo.test_cmd.getD "cargo test") with
  | .ok out => ⟨repo.name ++ " (test)", true, out, 0⟩
  | .error e => ⟨repo.name ++ " (test)", false, errText e, 0⟩

/-- The optional clean phase of one sequential iteration:
`if clean_first && let Some(cmd) = &repo.clean_cmd { run_cmd(..)?; }`.
Its error propagates out of the whole sequential call. -/
def cleanStep (env : Env) (cf : Bool) (repo : RepoConfig) : Except BuildError Unit :=
  if cf then
    match repo.clean_cmd with
    | some c =>
      match runCommand env repo c with
      | .error e => .error e
      | .ok _ => .ok ()
    | none => .ok ()
  else .ok ()

/-- The sequential engine loop of `build_inner`: optional clean (whose
failure aborts the whole call via `?`), then build, then optional test;
the loop breaks after the first failed build or test result. -/
def seqRun (env : Env) (rt cf : Bool) : List RepoConfig → Except BuildError (List BuildResult)
  | [] => .ok []
  | repo :: rest =>
    match cleanStep env cf repo with
    | .error e => .error e
    | .ok _ =>
      let br := build_one_repo env repo
      if !br.success then .ok [br]
      else if rt then
        let tr := test_one_repo env repo
        if !tr.success then .ok [br, tr]
        else
          match seqRun env rt cf rest with
          | .error e => .error e
          | .ok rs => .ok (br :: tr :: rs)
      else
        match seqRun env rt cf rest with
        | .error e => .error e
        | .ok rs => .ok (br :: rs)

/-- The `repos_to_build` computation of the sequential path of
`build_inner`: resolve the order first, then (for a scoped build) check
the target exists and filter the order to the target plus its transitive
dependencies. -/
def seqList (m : WorkspaceManifest) (tgt : Option String) : Except BuildError (List RepoConfig) :=
  match resolve_build_order m with
  | .error e => .error e
  | .ok ord =>
    match tgt with
    | none => .ok ord
    | some name =>
      match find_repo m name with
      | none => .error (.notFound name)
      | some _ =>
        .ok (ord.filter (fun r => r.name == name || (collect_deps m name).contains r.name))

/-- Rust `build` (= `build_inner` with `parallel = false`). -/
def build (env : Env) (m : WorkspaceManifest) (tgt : Option String) (rt cf : Bool) :
    Except BuildError BuildReport :=
  match seqList m tgt with
  | .error e => .error e
  | .ok repos_to_build =>
    match seqRun env rt cf repos_to_build with
    | .error e => .error e
    | .ok results => .ok ⟨results, 0, results.all (fun r => r.success)⟩

/-- Phase of one worker thread in the parallel engine. -/
inductive TPhase where
  | start
  | building
  | testing
  | finished
deriving DecidableEq, Repr

/-- Shared state of one level's thread scope: the per-thread phases, the
mutex-guarded failure flag and the mutex-guarded results vector. -/
structure PSt where
  threads : List (RepoConfig × TPhase)
  failed : Bool
  results : List BuildResult
deriving DecidableEq, Repr

/-- Replace the phase of thread `t`. -/
def setPh (ths : List (RepoConfig × TPhase)) (t : Nat) (ph : TPhase) :
    List (RepoConfig × TPhase) :=
  match ths.get? t with
  | some pr => ths.set t (pr.1, ph)
  | none => ths

/-- One atomic step of worker thread `t` in the parallel engine:

* `start`: the initial `if *failed.lock() { return }` check; on a set
  flag the thread exits without recording anything, otherwise it
  proceeds (the discarded clean invocation has no observable effect).
* `building`: run the build command, push its result, and on failure set
  the shared flag (these happen in the thread's own critical sections;
  merging them into one step loses no observable results interleaving
  because the push is the only shared write).
* `testing`: run the test command, push its result, set the flag on
  failure. -/
def pstep (env : Env) (rt : Bool) (st : PSt) (t : Nat) : PSt :=
  match st.threads.get? t with
  | none => st
  | some pr =>
    match pr.2 with
    | .finished => st
    | .start =>
      if st.failed then { st with threads := setPh st.threads t .finished }
      else { st with threads := setPh st.threads t .building }
    | .building =>
      let br := build_one_repo env pr.1
      if br.success then
        if rt then { st with results := st.results ++ [br], threads := setPh st.threads t .testing }
        else { st with results := st.results ++ [br], threads := setPh st.threads t .finished }
      else
        { st with results := st.results ++ [br], failed := true,
                  threads := setPh st.threads t .finished }
    | .testing =>
      let tr := test_one_repo env pr.1
      { st with results := st.results ++ [tr], failed := st.failed || !tr.success,
                threads := setPh st.threads t .finished }

/-- Step thread `t` three times: enough to drive any thread from any
phase to `finished`. -/
def drain3 (env : Env) (rt : Bool) (st : PSt) (t : Nat) : PSt :=
  pstep env rt (pstep env rt (pstep env rt st t) t) t

/-- Run one level's thread scope: spawn one thread per repo, let the
schedule interleave their steps, then (join barrier) run every thread to
completion.  Returns the final failure flag and results vector. -/
def runLevelThreads (env : Env) (rt : Bool) (repos : List RepoConfig) (sched : List Nat)
    (results0 : List BuildResult) : Bool × List BuildResult :=
  let st0 : PSt := ⟨repos.map (fun r => (r, TPhase.start)), false, results0⟩
  let st1 := sched.foldl (pstep env rt) st0
  let st2 := (List.range repos.length).foldl (drain3 env rt) st1
  (st2.failed, st2.results)

/-- The per-level target filter of `build_parallel_impl`:
`level.iter().filter(|r| target_repos.is_none_or(|t| t.contains(&r.name)))`.
-/
def filterT (tset : Option (List String)) (lvl : List RepoConfig) : List RepoConfig :=
  lvl.filter (fun r =>
    match tset with
    | none => true
    | some ts => ts.contains r.name)

/-- The level loop of `build_parallel_impl`: break once failed, filter
each level by the target set, skip empty levels, and otherwise run the
level's threads (consuming one schedule entry per executed level). -/
def runLevels (env : Env) (rt : Bool) (tset : Option (List String)) :
    List (List RepoConfig) → List (List Nat) → Bool → List BuildResult →
    Bool × List BuildResult
  | [], _, failed, results => (failed, results)
  | lvl :: rest, scheds, failed, results =>
    if failed then (failed, results)
    else
      let ril := filterT tset lvl
      if ril.isEmpty then runLevels env rt tset rest scheds failed results
      else
        let p := runLevelThreads env rt ril (scheds.headD []) results
        runLevels env rt tset rest scheds.tail p.1 p.2

/-- Rust `build_parallel` (= `build_inner` with `parallel = true`, which
immediately calls `build_parallel_impl`).  Note that the parallel path
performs no `find_repo` existence check on the target; the target set is
`{name} ∪ collect_deps(name)`.  The clean flag is accepted but, as in
the modelled code path, a failed clean is discarded and has no
observable effect, so the parameter is unused.  `scheds` chooses the
thread interleaving of each executed level. -/
def build_parallel (env : Env) (m : WorkspaceManifest) (tgt : Option String) (rt : Bool)
    (_cf : Bool) (scheds : List (List Nat)) : Except BuildError BuildReport :=
  match resolve_build_levels m with
  | .error e => .error e
  | .ok lvls =>
    let tset := tgt.map (fun name => name :: collect_deps m name)
    let p := runLevels env rt tset lvls scheds false []
    .ok ⟨p.2, 0, p.2.all (fun r => r.success)⟩

/-- Dependency edge between descriptor indices: `i` depends on `j` when
some name in `repos[i].depends_on` resolves (by first position) to `j`.
-/
def edgeI (repos : List RepoConfig) (i j : Nat) : Prop :=
  ∃ dep ∈ (repos.getD i default).depends_on, posOf repos dep = some j

instance (repos : List RepoConfig) (i j : Nat) : Decidable (edgeI repos i j) := by
  unfold edgeI; exact List.decidableBEx _ _

/-- Dependency edge between repository names: `a` names a descriptor
whose `depends_on` contains `b` (`b` need not resolve). -/
def edgeN (m : WorkspaceManifest) (a b : String) : Prop :=
  ∃ r, find_repo m a = some r ∧ b ∈ r.depends_on

/-! ### Generic list helpers -/

/-- Position of the first occurrence of `x` in `l` (length of `l` if
absent): a self-contained index function for ordering arguments. -/
def idxIn : List Nat → Nat → Nat
  | [], _ => 0
  | y :: ys, x => if y = x then 0 else idxIn ys x + 1

/-- Invariant of the DFS state: marker vectors have the right length,
the output order is a duplicate-free list of in-range indices that
matches the `visited` markers, and every emitted index has all its
resolvable dependencies emitted strictly earlier. -/
def DfsInv (repos : List RepoConfig) (st : DfsSt) : Prop :=
  st.visited.length = repos.length ∧ st.in_stack.length = repos.length ∧
  (∀ i ∈ st.order, i < repos.length) ∧ st.order.Nodup ∧
  (∀ i, i ∈ st.order ↔ st.visited.getD i false = true) ∧
  (∀ i ∈ st.order, ∀ j, edgeI repos i j →
    j ∈ st.order ∧ idxIn st.order j < idxIn st.order i)

/-- Conclusions of a successful `dfs` call at index `idx`. -/
def DfsOk (repos : List RepoConfig) (idx : Nat) (st st' : DfsSt) : Prop :=
  DfsInv repos st' ∧ (∃ ext, st'.order = st.order ++ ext) ∧
  (∀ i, st.visited.getD i false = true → st'.visited.getD i false = true) ∧
  (∀ i, st'.visited.getD i false = true →
    st.visited.getD i false = true ∨ st.in_stack.getD i false = false) ∧
  st'.visited.getD idx false = true

/-- Conclusions of a successful dependency loop over `deps`. -/
def GoOk (repos : List RepoConfig) (deps : List String) (st st' : DfsSt) : Prop :=
  DfsInv repos st' ∧ (∃ ext, st'.order = st.order ++ ext) ∧
  (∀ i, st.visited.getD i false = true → st'.visited.getD i false = true) ∧
  (∀ i, st'.visited.getD i false = true →
    st.visited.getD i false = true ∨ st.in_stack.getD i false = false) ∧
  (∀ dep ∈ deps, ∀ j, posOf repos dep = some j → st'.visited.getD j false = true)

/-- Convenience constructor matching the TOML test fixtures. -/
def mkRepo (nm : String) (deps : List String) : RepoConfig :=
  { name := nm, url := "https://example.com/" ++ nm, depends_on := deps }

/-- The A / B([A]) / C([A,B]) workspace of the crate's tests. -/
def mABC : WorkspaceManifest :=
  { workspace := { name := "test" },
    repos := [mkRepo "A" [], mkRepo "B" ["A"], mkRepo "C" ["A", "B"]] }

/-- The two-repo mutual-dependency workspace of the crate's tests. -/
def mAB : WorkspaceManifest :=
  { workspace := { name := "test" },
    repos := [mkRepo "A" ["B"], mkRepo "B" ["A"]] }

/-- X depends on Z; Y and Z are independent of everything else. -/
def mC6 : WorkspaceManifest :=
  { workspace := { name := "test" },
    repos := [mkRepo "X" ["Z"], mkRepo "Y" [], mkRepo "Z" []] }

/-- An environment in which every command succeeds with empty output. -/
def envAllOk : Env := fun _ _ => .exited true "" ""

/-- Same repository list under two different workspace names. -/
def mW1 : WorkspaceManifest :=
  { workspace := { name := "w1" }, repos := [mkRepo "A" [], mkRepo "B" ["A"]] }

/-- Same repository list as `mW1`, different workspace name. -/
def mW2 : WorkspaceManifest :=
  { workspace := { name := "w2" }, repos := [mkRepo "A" [], mkRepo "B" ["A"]] }

/-- Invariant of the `collect_deps` walk: the accumulated `deps` are
duplicate-free dependency-name occurrences reachable from `name`, the
stack holds only `name` and accumulated names, and every accumulated (or
start) name is either still pending on the stack or fully expanded. -/
def CollectInv (m : WorkspaceManifest) (name : String) (stack deps : List String) : Prop :=
  deps.Nodup ∧ (∀ x ∈ deps, x ∈ allDepNames m) ∧
  (∀ x ∈ deps, Relation.TransGen (edgeN m) name x) ∧
  (∀ x ∈ stack, x = name ∨ x ∈ deps) ∧
  (∀ x, (x = name ∨ x ∈ deps) → x ∈ stack ∨
    (∀ r, find_repo m x = some r → ∀ d ∈ r.depends_on, d ∈ deps))

/-- Results the sequential loop records for a fully passing prefix. -/
def seqResultsOk (env : Env) (rt : Bool) (pre : List RepoConfig) : List BuildResult :=
  if rt then (pre.map (fun r => [build_one_repo env r, test_one_repo env r])).flatten
  else pre.map (fun r => build_one_repo env r)

/-- The three-repo workspace P1 / P2 / P3 with no dependencies. -/
def mP3 : WorkspaceManifest :=
  { workspace := { name := "test" },
    repos := [mkRepo "P1" [], mkRepo "P2" [], mkRepo "P3" []] }

/-- Environment in which every command in P3 fails and everything else
succeeds. -/
def envP3 : Env := fun repo _ =>
  if repo = "P3" then .exited false "" "boom" else .exited true "" ""

/-- Two environments agree on a repository's build and test commands. -/
def EnvAgree (env1 env2 : Env) (r : RepoConfig) : Prop :=
  env1 r.name (r.build_cmd.getD "cargo build") = env2 r.name (r.build_cmd.getD "cargo build") ∧
  env1 r.name (r.test_cmd.getD "cargo test") = env2 r.name (r.test_cmd.getD "cargo test")

/-- A single repository with a configured clean command. -/
def mClean : WorkspaceManifest :=
  { workspace := { name := "test" },
    repos := [{ name := "R", url := "https://example.com/r", clean_cmd := some "make clean" }] }

/-- Environment that fails exactly the clean command. -/
def envCleanFail : Env := fun _ cmd =>
  if cmd = "make clean" then .exited false "" "boom" else .exited true "" ""

/-- `e` is the build or test entry of repository `r`. -/
def entryOfRepo (r : RepoConfig) (e : BuildResult) : Prop :=
  e.repo_name = r.name ∨ e.repo_name = r.name ++ " (test)"

/-- `e` is an entry of some repository of `lvl`. -/
def entryOfLevel (lvl : List RepoConfig) (e : BuildResult) : Prop :=
  ∃ r ∈ lvl, entryOfRepo r e

/-- Specification of one scheduler step: thread repos stay within `S`,
results are append-only with new entries belonging to `S`, and the
failure flag becomes set exactly when it was set or a new failing entry
was pushed. -/
def StepSpec (f : PSt → Nat → PSt) (S : List RepoConfig) : Prop :=
  ∀ st t, (∀ pr ∈ st.threads, (pr : RepoConfig × TPhase).1 ∈ S) →
    (∀ pr ∈ (f st t).threads, (pr : RepoConfig × TPhase).1 ∈ S) ∧
    ∃ new, (f st t).results = st.results ++ new ∧
      (∀ e ∈ new, entryOfLevel S e) ∧
      (f st t).failed = (st.failed || new.any (fun e => !e.success))

/-- Two independent repositories P and Q in a single level. -/
def mPQ : WorkspaceManifest :=
  { workspace := { name := "test" }, repos := [mkRepo "P" [], mkRepo "Q" []] }

/-- Environment in which every command in P fails and everything else
succeeds. -/
def envPFail : Env := fun repo _ =>
  if repo = "P" then .exited false "" "boom" else .exited true "" ""

theorem getD_set_self {α : Type _} (l : List α) (i : Nat) (a d : α) (h : i < l.length) :
    (l.set i a).getD i d = a := by
  induction l generalizing i with
  | nil => simp at h
  | cons b t ih =>
    cases i with
    | zero => rfl
    | succ k => simpa using ih k (by simpa using h)

theorem getD_set_ne {α : Type _} (l : List α) (i j : Nat) (a d : α) (h : i ≠ j) :
    (l.set i a).getD j d = l.getD j d := by
  induction l generalizing i j with
  | nil => rfl
  | cons b t ih =>
    cases i with
    | zero =>
      cases j with
      | zero => exact absurd rfl h
      | succ k => rfl
    | succ k =>
      cases j with
      | zero => rfl
      | succ k' => simpa using ih k k' (by omega)

theorem set_eq_self_of_getD {α : Type _} (l : List α) (i : Nat) (d : α)
    (h : l.getD i d = d) : l.set i d = l := by
  induction l generalizing i with
  | nil => rfl
  | cons b t ih =>
    cases i with
    | zero => simp_all [List.getD]
    | succ k => simpa using ih k (by simpa [List.getD] using h)

theorem getD_of_length_le {α : Type _} (l : List α) (i : Nat) (d : α) (h : l.length ≤ i) :
    l.getD i d = d := by
  induction l generalizing i with
  | nil => rfl
  | cons b t ih =>
    cases i with
    | zero => simp at h
    | succ k => simpa using ih k (by simpa using h)

theorem count_false_set_true (l : List Bool) (i : Nat) (hi : i < l.length)
    (h : l.getD i false = false) : l.count false = (l.set i true).count false + 1 := by
  induction l generalizing i with
  | nil => simp at hi
  | cons b t ih =>
    cases i with
    | zero =>
      have hb : b = false := h
      subst hb
      simp [List.count_cons]
    | succ k =>
      have ih' := ih k (by simpa using hi) (by simpa [List.getD] using h)
      simp only [List.set_cons_succ, List.count_cons]
      by_cases hb : (b == false) = true
      · simp only [hb, if_true]
        omega
      · simp only [hb, if_false]
        omega

theorem getD_replicate_false (n i : Nat) : (List.replicate n false).getD i false = false := by
  induction n generalizing i with
  | zero => rfl
  | succ k ih =>
    cases i with
    | zero => rfl
    | succ j => exact ih j

theorem nodup_append_singleton {α : Type _} {l : List α} {x : α} (h : l.Nodup) (hx : x ∉ l) :
    (l ++ [x]).Nodup := by
  rw [List.nodup_append]
  exact ⟨h, List.nodup_singleton x, by
    intro a ha hb
    simp at hb
    subst hb
    exact hx ha⟩

theorem idxIn_lt_length {l : List Nat} {x : Nat} (h : x ∈ l) : idxIn l x < l.length := by
  induction l with
  | nil => simp at h
  | cons y ys ih =>
    by_cases hy : y = x
    · simp [idxIn, hy]
    · have hx : x ∈ ys := by
        rcases List.mem_cons.mp h with h' | h'
        · exact absurd h'.symm hy
        · exact h'
      simp [idxIn, hy]
      exact ih hx

theorem idxIn_append_left {l t : List Nat} {x : Nat} (h : x ∈ l) :
    idxIn (l ++ t) x = idxIn l x := by
  induction l with
  | nil => simp at h
  | cons y ys ih =>
    by_cases hy : y = x
    · simp [idxIn, hy]
    · have hx : x ∈ ys := by
        rcases List.mem_cons.mp h with h' | h'
        · exact absurd h'.symm hy
        · exact h'
      simp [idxIn, hy, ih hx]

theorem idxIn_append_self {l : List Nat} {x : Nat} (h : x ∉ l) :
    idxIn (l ++ [x]) x = l.length := by
  induction l with
  | nil => simp [idxIn]
  | cons y ys ih =>
    have hy : y ≠ x := by
      intro he
      exact h (he ▸ List.mem_cons_self y ys)
    have hx : x ∉ ys := fun hm => h (List.mem_cons_of_mem _ hm)
    simp [idxIn, hy, ih hx]

/-! ### `posOf` and edge helpers -/

theorem posOf_some_lt {repos : List RepoConfig} {nm : String} {j : Nat}
    (h : posOf repos nm = some j) : j < repos.length := by
  induction repos generalizing j with
  | nil => simp [posOf] at h
  | cons r rs ih =>
    by_cases hr : r.name = nm
    · simp [posOf, hr] at h
      simp [List.length_cons]
      omega
    · simp [posOf, hr] at h
      rcases h with ⟨k, hk, rfl⟩
      have := ih hk
      simpa using Nat.succ_lt_succ this

theorem posOf_some_name {repos : List RepoConfig} {nm : String} {j : Nat}
    (h : posOf repos nm = some j) : (repos.getD j default).name = nm := by
  induction repos generalizing j with
  | nil => simp [posOf] at h
  | cons r rs ih =>
    by_cases hr : r.name = nm
    · simp [posOf, hr] at h
      subst h
      exact hr
    · simp [posOf, hr] at h
      rcases h with ⟨k, hk, rfl⟩
      simpa using ih hk

theorem posOf_none {repos : List RepoConfig} {nm : String}
    (h : posOf repos nm = none) : ∀ r ∈ repos, r.name ≠ nm := by
  induction repos with
  | nil => intro r hr; simp at hr
  | cons r rs ih =>
    by_cases hr : r.name = nm
    · simp [posOf, hr] at h
    · simp [posOf, hr] at h
      intro s hs
      rcases List.mem_cons.mp hs with h' | h'
      · exact h' ▸ hr
      · exact ih h s h'

theorem edgeI_lt {repos : List RepoConfig} {i j : Nat} (h : edgeI repos i j) :
    i < repos.length ∧ j < repos.length := by
  rcases h with ⟨dep, hdep, hpos⟩
  refine ⟨?_, posOf_some_lt hpos⟩
  by_contra hge
  have : repos.getD i default = default := getD_of_length_le _ _ _ (Nat.le_of_not_lt hge)
  rw [this] at hdep
  simp [default] at hdep

/-- If some ranking strictly decreases along every edge, the edge
relation has no cycles. -/
theorem acyclic_of_rank (repos : List RepoConfig) (f : Nat → Nat)
    (h : ∀ a b, a < repos.length → b < repos.length → edgeI repos a b → f b < f a) :
    ∀ i, ¬ Relation.TransGen (edgeI repos) i i := by
  have key : ∀ a b, Relation.TransGen (edgeI repos) a b → f b < f a := by
    intro a b hab
    induction hab with
    | single he => exact h _ _ (edgeI_lt he).1 (edgeI_lt he).2 he
    | tail _ he ih => exact Nat.lt_trans (h _ _ (edgeI_lt he).1 (edgeI_lt he).2 he) ih
  intro i hi
  exact Nat.lt_irrefl _ (key i i hi)

/-! ### DFS: unfolding and stack preservation -/

theorem dfsCore_zero (repos : List RepoConfig) (idx : Nat) (st : DfsSt) :
    dfsCore repos 0 idx st = .error .fuelExhausted := rfl

theorem dfsCore_succ (repos : List RepoConfig) (fuel idx : Nat) (st : DfsSt) :
    dfsCore repos (fuel + 1) idx st =
      (if st.in_stack.getD idx false then .error (.cycle ((repos.getD idx default).name))
       else if st.visited.getD idx false then .ok st
       else
         match goDeps repos (dfsCore repos fuel) ((repos.getD idx default).depends_on)
             { st with in_stack := st.in_stack.set idx true } with
         | .error e => .error e
         | .ok st2 =>
           .ok ⟨st2.visited.set idx true, st2.in_stack.set idx false, st2.order ++ [idx]⟩) := rfl

theorem goDeps_ok_stack {repos : List RepoConfig} {next : Nat → DfsSt → Except BuildError DfsSt}
    (hpres : ∀ j st st', next j st = .ok st' → st'.in_stack = st.in_stack) :
    ∀ deps st st', goDeps repos next deps st = .ok st' → st'.in_stack = st.in_stack := by
  intro deps
  induction deps with
  | nil =>
    intro st st' h
    simp only [goDeps] at h
    cases h
    rfl
  | cons dep rest ih =>
    intro st st' h
    simp only [goDeps] at h
    split at h
    · exact ih st st' h
    · rename_i j hp
      split at h
      · cases h
      · rename_i st2 hn
        rw [ih st2 st' h, hpres j st st2 hn]

theorem dfs_ok_stack {repos : List RepoConfig} :
    ∀ fuel idx st st', dfsCore repos fuel idx st = .ok st' → st'.in_stack = st.in_stack := by
  intro fuel
  induction fuel with
  | zero =>
    intro idx st st' h
    rw [dfsCore_zero] at h
    cases h
  | succ f ih =>
    intro idx st st' h
    rw [dfsCore_succ] at h
    by_cases h1 : st.in_stack.getD idx false = true
    · rw [if_pos h1] at h
      cases h
    · rw [if_neg h1] at h
      by_cases h2 : st.visited.getD idx false = true
      · rw [if_pos h2] at h
        cases h
        rfl
      · rw [if_neg h2] at h
        split at h
        · cases h
        · rename_i st2 hg
          cases h
          have hpres := goDeps_ok_stack (fun j a b hab => ih j a b hab) _ _ _ hg
          simp only at hpres
          show st2.in_stack.set idx false = st.in_stack
          rw [hpres, List.set_set]
          exact set_eq_self_of_getD _ _ _ (Bool.eq_false_iff.mpr (fun hc => h1 hc))

/-! ### DFS: error analysis -/

theorem goDeps_err {repos : List RepoConfig} {next : Nat → DfsSt → Except BuildError DfsSt}
    (hpres : ∀ j st st', next j st = .ok st' → st'.in_stack = st.in_stack) :
    ∀ deps st e, goDeps repos next deps st = .error e →
      ∃ dep ∈ deps, ∃ j st2, posOf repos dep = some j ∧ st2.in_stack = st.in_stack ∧
        next j st2 = .error e := by
  intro deps
  induction deps with
  | nil =>
    intro st e h
    simp only [goDeps] at h
    cases h
  | cons dep rest ih =>
    intro st e h
    simp only [goDeps] at h
    split at h
    · rcases ih st e h with ⟨dep', hmem, j, st2, hj, hst, hn⟩
      exact ⟨dep', List.mem_cons_of_mem _ hmem, j, st2, hj, hst, hn⟩
    · rename_i j hp
      split at h
      · rename_i e' hn
        cases h
        exact ⟨dep, List.mem_cons_self _ _, j, st, hp, rfl, hn⟩
      · rename_i st2 hn
        rcases ih st2 e h with ⟨dep', hmem, j', st3, hj', hst, hn'⟩
        exact ⟨dep', List.mem_cons_of_mem _ hmem, j', st3,
          hj', by rw [hst, hpres j st st2 hn], hn'⟩

theorem dfs_no_fuel {repos : List RepoConfig} :
    ∀ fuel idx st, idx < repos.length → st.in_stack.length = repos.length →
      st.in_stack.count false + 1 ≤ fuel →
      dfsCore repos fuel idx st ≠ .error .fuelExhausted := by
  intro fuel
  induction fuel with
  | zero =>
    intro idx st _ _ hfuel
    omega
  | succ f ih =>
    intro idx st hidx hlen hfuel h
    rw [dfsCore_succ] at h
    by_cases h1 : st.in_stack.getD idx false = true
    · rw [if_pos h1] at h
      cases h
    · rw [if_neg h1] at h
      by_cases h2 : st.visited.getD idx false = true
      · rw [if_pos h2] at h
        cases h
      · rw [if_neg h2] at h
        split at h
        · rename_i e hg
          cases h
          rcases goDeps_err (fun j a b hab => dfs_ok_stack f j a b hab) _ _ _ hg with
            ⟨dep, _, j, st2, hj, hst, hn⟩
          simp only at hst
          have hcount : st.in_stack.count false = (st.in_stack.set idx true).count false + 1 :=
            count_false_set_true _ _ (hlen ▸ hidx) (Bool.eq_false_iff.mpr (fun hc => h1 hc))
          have hst2len : st2.in_stack.length = repos.length := by
            rw [hst]
            simpa using hlen
          have hst2count : st2.in_stack.count false + 1 ≤ f := by
            rw [hst]
            omega
          exact ih j st2 (posOf_some_lt hj) hst2len hst2count hn
        · rename_i st2 hg
          cases h

theorem dfs_err_cycle {repos : List RepoConfig} :
    ∀ fuel idx st e,
      (∀ j, st.in_stack.getD j false = true → Relation.TransGen (edgeI repos) j idx) →
      dfsCore repos fuel idx st = .error e →
      e = .fuelExhausted ∨
        ∃ j, Relation.TransGen (edgeI repos) j j ∧ e = .cycle ((repos.getD j default).name) := by
  intro fuel
  induction fuel with
  | zero =>
    intro idx st e _ h
    rw [dfsCore_zero] at h
    cases h
    exact Or.inl rfl
  | succ f ih =>
    intro idx st e hH h
    rw [dfsCore_succ] at h
    by_cases h1 : st.in_stack.getD idx false = true
    · rw [if_pos h1] at h
      cases h
      exact Or.inr ⟨idx, hH idx h1, rfl⟩
    · rw [if_neg h1] at h
      by_cases h2 : st.visited.getD idx false = true
      · rw [if_pos h2] at h
        cases h
      · rw [if_neg h2] at h
        split at h
        · rename_i e' hg
          cases h
          rcases goDeps_err (fun j a b hab => dfs_ok_stack f j a b hab) _ _ _ hg with
            ⟨dep, hdep, j, st2, hj, hst, hn⟩
          simp only at hst
          have hedge : edgeI repos idx j := ⟨dep, hdep, hj⟩
          refine ih j st2 e ?_ hn
          intro a ha
          rw [hst] at ha
          by_cases haidx : a = idx
          · subst haidx
            exact Relation.TransGen.single hedge
          · have hsa : st.in_stack.getD a false = true := by
              rw [← getD_set_ne st.in_stack idx a true false (fun hc => haidx hc.symm)]
              exact ha
            exact Relation.TransGen.tail (hH a hsa) hedge
        · rename_i st2 hg
          cases h

/-! ### DFS: the main invariant -/

theorem goDeps_ok_main {repos : List RepoConfig} {next : Nat → DfsSt → Except BuildError DfsSt}
    (hpres : ∀ j st st', next j st = .ok st' → st'.in_stack = st.in_stack)
    (hnext : ∀ j st st', j < repos.length → DfsInv repos st → next j st = .ok st' →
      DfsOk repos j st st') :
    ∀ deps st st', DfsInv repos st → goDeps repos next deps st = .ok st' →
      GoOk repos deps st st' := by
  intro deps
  induction deps with
  | nil =>
    intro st st' hInv h
    simp only [goDeps] at h
    cases h
    refine ⟨hInv, ⟨[], by simp⟩, fun i hi => hi, fun i hi => Or.inl hi, ?_⟩
    intro dep hdep
    simp at hdep
  | cons dep rest ih =>
    intro st st' hInv h
    simp only [goDeps] at h
    split at h
    · rename_i hp
      rcases ih st st' hInv h with ⟨h1, h2, h3, h4, h5⟩
      refine ⟨h1, h2, h3, h4, ?_⟩
      intro dep' hdep' j hj
      rcases List.mem_cons.mp hdep' with he | he
      · subst he
        rw [hp] at hj
        cases hj
      · exact h5 dep' he j hj
    · rename_i j hp
      split at h
      · cases h
      · rename_i st2 hn
        have hj : j < repos.length := posOf_some_lt hp
        rcases hnext j st st2 hj hInv hn with ⟨hInv2, ⟨e1, he1⟩, hmono2, hnis2, hvisj⟩
        rcases ih st2 st' hInv2 h with ⟨hInv', ⟨e2, he2⟩, hmono', hnis', hdeps'⟩
        refine ⟨hInv', ⟨e1 ++ e2, by rw [he2, he1, List.append_assoc]⟩, ?_, ?_, ?_⟩
        · intro i hi
          exact hmono' i (hmono2 i hi)
        · intro i hi
          rcases hnis' i hi with h' | h'
          · exact hnis2 i h'
          · rw [hpres j st st2 hn] at h'
            exact Or.inr h'
        · intro dep' hdep' j' hj'
          rcases List.mem_cons.mp hdep' with he | he
          · subst he
            rw [hp] at hj'
            cases hj'
            exact hmono' j hvisj
          · exact hdeps' dep' he j' hj'

theorem dfs_ok_main {repos : List RepoConfig} :
    ∀ fuel idx st st', idx < repos.length → DfsInv repos st →
      dfsCore repos fuel idx st = .ok st' → DfsOk repos idx st st' := by
  intro fuel
  induction fuel with
  | zero =>
    intro idx st st' _ _ h
    rw [dfsCore_zero] at h
    cases h
  | succ f ih =>
    intro idx st st' hidx hInv h
    obtain ⟨hvlen, hslen, hbnd, hnd, hvis, hord⟩ := hInv
    rw [dfsCore_succ] at h
    by_cases h1 : st.in_stack.getD idx false = true
    · rw [if_pos h1] at h
      cases h
    · rw [if_neg h1] at h
      by_cases h2 : st.visited.getD idx false = true
      · rw [if_pos h2] at h
        cases h
        exact ⟨⟨hvlen, hslen, hbnd, hnd, hvis, hord⟩, ⟨[], by simp⟩,
          fun i hi => hi, fun i hi => Or.inl hi, h2⟩
      · rw [if_neg h2] at h
        split at h
        · cases h
        · rename_i st2 hg
          cases h
          set st1 : DfsSt := { st with in_stack := st.in_stack.set idx true } with hst1
          have hInv1 : DfsInv repos st1 := by
            refine ⟨hvlen, ?_, hbnd, hnd, hvis, hord⟩
            simpa using hslen
          have hgo := goDeps_ok_main (fun j a b hab => dfs_ok_stack f j a b hab)
            (fun j a b hj hI hab => ih j a b hj hI hab) _ _ _ hInv1 hg
          rcases hgo with ⟨hInv2, ⟨e1, he1⟩, hmono2, hnis2, hdeps2⟩
          obtain ⟨hvlen2, hslen2, hbnd2, hnd2, hvis2, hord2⟩ := hInv2
          have hidxlen2 : idx < st2.visited.length := by rw [hvlen2]; exact hidx
          have hnotmem : idx ∉ st2.order := by
            intro hmem
            have hv2 : st2.visited.getD idx false = true := (hvis2 idx).mp hmem
            rcases hnis2 idx hv2 with h' | h'
            · exact h2 h'
            · rw [hst1] at h'
              simp only at h'
              rw [getD_set_self _ _ _ _ (hslen ▸ hidx)] at h'
              cases h'
          have hvis' : ∀ i, i ∈ st2.order ++ [idx] ↔
              (st2.visited.set idx true).getD i false = true := by
            intro i
            by_cases hii : i = idx
            · subst hii
              rw [getD_set_self _ _ _ _ hidxlen2]
              simp
            · rw [getD_set_ne _ _ _ _ _ (fun hc => hii hc.symm)]
              constructor
              · intro hm
                rcases List.mem_append.mp hm with hm | hm
                · exact (hvis2 i).mp hm
                · simp at hm
                  exact absurd hm hii
              · intro hv
                exact List.mem_append.mpr (Or.inl ((hvis2 i).mpr hv))
          refine ⟨⟨by simpa using hvlen2, by simpa using hslen2, ?_, ?_, hvis', ?_⟩,
            ⟨e1 ++ [idx], by simp only; rw [he1]; simp [hst1, List.append_assoc]⟩, ?_, ?_, ?_⟩
          · intro i hi
            rcases List.mem_append.mp hi with hm | hm
            · exact hbnd2 i hm
            · simp at hm
              subst hm
              exact hidx
          · exact nodup_append_singleton hnd2 hnotmem
          · intro i hi j hedge
            simp only at hi ⊢
            rcases List.mem_append.mp hi with hm | hm
            · rcases hord2 i hm j hedge with ⟨hjm, hlt⟩
              refine ⟨List.mem_append.mpr (Or.inl hjm), ?_⟩
              rw [idxIn_append_left hjm, idxIn_append_left hm]
              exact hlt
            · simp at hm
              subst hm
              rcases hedge with ⟨dep, hdep, hpos⟩
              have hv2 : st2.visited.getD j false = true := hdeps2 dep hdep j hpos
              have hjm : j ∈ st2.order := (hvis2 j).mpr hv2
              refine ⟨List.mem_append.mpr (Or.inl hjm), ?_⟩
              rw [idxIn_append_left hjm, idxIn_append_self hnotmem]
              exact idxIn_lt_length hjm
          · intro i hi
            simp only
            by_cases hii : i = idx
            · subst hii
              rw [getD_set_self _ _ _ _ hidxlen2]
            · rw [getD_set_ne _ _ _ _ _ (fun hc => hii hc.symm)]
              exact hmono2 i hi
          · intro i hi
            simp only at hi
            by_cases hii : i = idx
            · subst hii
              exact Or.inr (Bool.eq_false_iff.mpr (fun hc => h1 hc))
            · rw [getD_set_ne _ _ _ _ _ (fun hc => hii hc.symm)] at hi
              rcases hnis2 i hi with h' | h'
              · exact Or.inl h'
              · rw [hst1] at h'
                simp only at h'
                rw [getD_set_ne _ _ _ _ _ (fun hc => hii hc.symm)] at h'
                exact Or.inr h'
          · simp only
            rw [getD_set_self _ _ _ _ hidxlen2]

theorem count_false_replicate (n : Nat) : (List.replicate n false).count false = n := by
  induction n with
  | zero => rfl
  | succ k ih => simp [List.replicate_succ, List.count_cons, ih]

theorem runAll_ok {repos : List RepoConfig} :
    ∀ is st st', (∀ i ∈ is, i < repos.length) → DfsInv repos st →
      runAll repos is st = .ok st' →
      DfsInv repos st' ∧
      (∀ i, st.visited.getD i false = true → st'.visited.getD i false = true) ∧
      (∀ i ∈ is, st'.visited.getD i false = true) ∧
      st'.in_stack = st.in_stack := by
  intro is
  induction is with
  | nil =>
    intro st st' _ hInv h
    simp only [runAll] at h
    cases h
    exact ⟨hInv, fun i hi => hi, fun i hi => by simp at hi, rfl⟩
  | cons i rest ih =>
    intro st st' hbnd hInv h
    simp only [runAll] at h
    split at h
    · cases h
    · rename_i st2 hd
      have hi : i < repos.length := hbnd i (List.mem_cons_self _ _)
      rcases dfs_ok_main _ i st st2 hi hInv hd with ⟨hInv2, _, hmono2, _, hvisi⟩
      rcases ih st2 st' (fun a ha => hbnd a (List.mem_cons_of_mem _ ha)) hInv2 h with
        ⟨hInv', hmono', hvis', hstk'⟩
      refine ⟨hInv', fun a ha => hmono' a (hmono2 a ha), ?_, ?_⟩
      · intro a ha
        rcases List.mem_cons.mp ha with he | he
        · subst he
          exact hmono' a hvisi
        · exact hvis' a he
      · rw [hstk', dfs_ok_stack _ i st st2 hd]

theorem runAll_err {repos : List RepoConfig} :
    ∀ is st e, (∀ i ∈ is, i < repos.length) → DfsInv repos st →
      st.in_stack = List.replicate repos.length false →
      runAll repos is st = .error e →
      ∃ j, Relation.TransGen (edgeI repos) j j ∧
        e = .cycle ((repos.getD j default).name) := by
  intro is
  induction is with
  | nil =>
    intro st e _ _ _ h
    simp only [runAll] at h
    cases h
  | cons i rest ih =>
    intro st e hbnd hInv hstk h
    simp only [runAll] at h
    split at h
    · rename_i e' hd
      cases h
      have hi : i < repos.length := hbnd i (List.mem_cons_self _ _)
      have hnofuel : dfsCore repos (repos.length + 1) i st ≠ .error .fuelExhausted := by
        refine dfs_no_fuel _ i st hi ?_ ?_
        · rw [hstk]
          simp
        · rw [hstk, count_false_replicate]
      have hH : ∀ j, st.in_stack.getD j false = true →
          Relation.TransGen (edgeI repos) j i := by
        intro j hj
        rw [hstk, getD_replicate_false] at hj
        cases hj
      rcases dfs_err_cycle _ i st e hH hd with hf | hc
      · subst hf
        exact absurd hd hnofuel
      · exact hc
    · rename_i st2 hd
      have hi : i < repos.length := hbnd i (List.mem_cons_self _ _)
      rcases dfs_ok_main _ i st st2 hi hInv hd with ⟨hInv2, _, _, _, _⟩
      refine ih st2 e (fun a ha => hbnd a (List.mem_cons_of_mem _ ha)) hInv2 ?_ h
      rw [dfs_ok_stack _ i st st2 hd, hstk]

theorem initSt_inv (repos : List RepoConfig) : DfsInv repos (initSt repos.length) := by
  refine ⟨by simp [initSt], by simp [initSt], ?_, ?_, ?_, ?_⟩
  · intro i hi
    simp [initSt] at hi
  · simp [initSt]
  · intro i
    simp only [initSt]
    rw [getD_replicate_false]
    simp
  · intro i hi
    simp [initSt] at hi

/-- Unconditional soundness of a successful order resolution: the index
order is duplicate-free, contains exactly the in-range indices, and
places every resolvable dependency strictly before its dependent. -/
theorem resolve_idx_ok_spec {m : WorkspaceManifest} {ord : List Nat}
    (h : resolve_build_order_idx m = .ok ord) :
    ord.Nodup ∧ (∀ i, i ∈ ord ↔ i < m.repos.length) ∧
    (∀ i ∈ ord, ∀ j, edgeI m.repos i j → j ∈ ord ∧ idxIn ord j < idxIn ord i) := by
  unfold resolve_build_order_idx at h
  split at h
  · cases h
  · rename_i st hr
    cases h
    rcases runAll_ok (List.range m.repos.length) _ st
        (fun i hi => List.mem_range.mp hi) (initSt_inv m.repos) hr with
      ⟨⟨_, _, hbnd, hnd, hvis, hord⟩, _, hvisall, _⟩
    refine ⟨hnd, ?_, hord⟩
    intro i
    constructor
    · exact hbnd i
    · intro hi
      exact (hvis i).mpr (hvisall i (List.mem_range.mpr hi))

/-- Unconditional soundness of a failed order resolution: the error is a
cycle error naming a repository that really lies on a dependency cycle.
-/
theorem resolve_idx_err_spec {m : WorkspaceManifest} {e : BuildError}
    (h : resolve_build_order_idx m = .error e) :
    ∃ j, Relation.TransGen (edgeI m.repos) j j ∧
      e = .cycle ((m.repos.getD j default).name) := by
  unfold resolve_build_order_idx at h
  split at h
  · rename_i e' hr
    cases h
    exact runAll_err (List.range m.repos.length) _ e
      (fun i hi => List.mem_range.mp hi) (initSt_inv m.repos) rfl hr
  · cases h

theorem map_getD_range {α : Type _} (l : List α) (d : α) :
    (List.range l.length).map (fun i => l.getD i d) = l := by
  induction l with
  | nil => rfl
  | cons a t ih =>
    rw [List.length_cons, List.range_succ_eq_map, List.map_cons, List.map_map]
    have : ((fun i => (a :: t).getD i d) ∘ Nat.succ) = fun i => t.getD i d := by
      funext i
      rfl
    rw [this, ih]
    rfl

/-- An index with no outgoing dependency edge starts no dependency path. -/
theorem no_transGen_of_no_edge {repos : List RepoConfig} {a : Nat}
    (h : ∀ b, ¬ edgeI repos a b) : ∀ b, ¬ Relation.TransGen (edgeI repos) a b := by
  intro b hab
  rcases Relation.TransGen.head'_iff.mp hab with ⟨c, hac, _⟩
  exact h c hac

/-- Along a successfully resolved order, dependency paths strictly
decrease the output position. -/
theorem transGen_idxIn_lt {m : WorkspaceManifest} {ord : List Nat}
    (h : resolve_build_order_idx m = .ok ord) :
    ∀ a b, Relation.TransGen (edgeI m.repos) a b → a ∈ ord →
      b ∈ ord ∧ idxIn ord b < idxIn ord a := by
  rcases resolve_idx_ok_spec h with ⟨_, _, hord⟩
  intro a b hab
  induction hab with
  | single he => intro ha; exact hord a ha _ he
  | tail h1 he ih =>
    intro ha
    rcases ih ha with ⟨hc, hlt⟩
    rcases hord _ hc _ he with ⟨hb, hlt2⟩
    exact ⟨hb, Nat.lt_trans hlt2 hlt⟩

/-- C3: for every manifest whose resolvable dependency edges form no
cycle, `resolve_build_order` succeeds, the resulting order is a
permutation of the descriptor set (every descriptor exactly once), and
every resolvable dependency of a repository occurs strictly before it. -/
theorem C3_build_order_topological (m : WorkspaceManifest)
    (hacyc : ∀ i, ¬ Relation.TransGen (edgeI m.repos) i i) :
    ∃ ord, resolve_build_order_idx m = .ok ord ∧
      ord.Perm (List.range m.repos.length) ∧
      (∀ i ∈ ord, ∀ j, edgeI m.repos i j → j ∈ ord ∧ idxIn ord j < idxIn ord i) ∧
      resolve_build_order m = .ok (ord.map (fun i => m.repos.getD i default)) ∧
      (ord.map (fun i => m.repos.getD i default)).Perm m.repos := by
  cases h : resolve_build_order_idx m with
  | error e =>
    exfalso
    rcases resolve_idx_err_spec h with ⟨j, hcyc, _⟩
    exact hacyc j hcyc
  | ok ord =>
    rcases resolve_idx_ok_spec h with ⟨hnd, hmem, hord⟩
    have hperm : ord.Perm (List.range m.repos.length) :=
      (List.perm_ext_iff_of_nodup hnd (List.nodup_range _)).mpr
        (fun a => by rw [hmem a, List.mem_range])
    refine ⟨ord, rfl, hperm, hord, ?_, ?_⟩
    · unfold resolve_build_order
      rw [h]
    · have hm := hperm.map (fun i => m.repos.getD i default)
      rw [map_getD_range] at hm
      exact hm

/-- C8: a manifest whose resolvable dependency edges contain a cycle
makes order resolution, level resolution and both build entry points
fail with a cycle error naming a repository that lies on a cycle; no
report is produced and no command outcome is consulted. -/
theorem C8_cycle_error (m : WorkspaceManifest)
    (hcyc : ∃ i, Relation.TransGen (edgeI m.repos) i i) :
    ∃ j, Relation.TransGen (edgeI m.repos) j j ∧
      resolve_build_order m = .error (.cycle ((m.repos.getD j default).name)) ∧
      resolve_build_levels m = .error (.cycle ((m.repos.getD j default).name)) ∧
      (∀ env tgt rt cf, build env m tgt rt cf =
        .error (.cycle ((m.repos.getD j default).name))) ∧
      (∀ env tgt rt cf scheds, build_parallel env m tgt rt cf scheds =
        .error (.cycle ((m.repos.getD j default).name))) := by
  cases h : resolve_build_order_idx m with
  | ok ord =>
    exfalso
    rcases hcyc with ⟨i, hi⟩
    rcases resolve_idx_ok_spec h with ⟨_, hmem, _⟩
    have hlt : i < m.repos.length := by
      cases hi with
      | single he => exact (edgeI_lt he).1
      | tail h1 he => exact (edgeI_lt he).2
    have hiord : i ∈ ord := (hmem i).mpr hlt
    exact absurd (transGen_idxIn_lt h i i hi hiord).2 (Nat.lt_irrefl _)
  | error e =>
    rcases resolve_idx_err_spec h with ⟨j, hj, he⟩
    subst he
    have hro : resolve_build_order m = .error (.cycle ((m.repos.getD j default).name)) := by
      unfold resolve_build_order
      rw [h]
    have hrl : resolve_build_levels m = .error (.cycle ((m.repos.getD j default).name)) := by
      unfold resolve_build_levels
      rw [hro]
    refine ⟨j, hj, hro, hrl, ?_, ?_⟩
    · intro env tgt rt cf
      unfold build seqList
      rw [hro]
    · intro env tgt rt cf scheds
      unfold build_parallel
      rw [hrl]

/-! ### Concrete fixtures -/

theorem mABC_acyclic : ∀ i, ¬ Relation.TransGen (edgeI mABC.repos) i i := by
  refine acyclic_of_rank mABC.repos (fun i => i) ?_
  have hdec : ∀ a, a < 3 → ∀ b, b < 3 → (edgeI mABC.repos a b → b < a) := by decide
  intro a b ha hb he
  exact hdec a ha b hb he

/-- Witness for C3 at the crate's own A/B/C fixture. -/
theorem C3_build_order_topological_witness :
    (∀ i, ¬ Relation.TransGen (edgeI mABC.repos) i i) ∧
    (∃ ord, resolve_build_order_idx mABC = .ok ord ∧
      ord.Perm (List.range mABC.repos.length) ∧
      (∀ i ∈ ord, ∀ j, edgeI mABC.repos i j → j ∈ ord ∧ idxIn ord j < idxIn ord i) ∧
      resolve_build_order mABC = .ok (ord.map (fun i => mABC.repos.getD i default)) ∧
      (ord.map (fun i => mABC.repos.getD i default)).Perm mABC.repos) :=
  ⟨mABC_acyclic, C3_build_order_topological mABC mABC_acyclic⟩

theorem mAB_cycle : ∃ i, Relation.TransGen (edgeI mAB.repos) i i := by
  have e01 : edgeI mAB.repos 0 1 := by decide
  have e10 : edgeI mAB.repos 1 0 := by decide
  exact ⟨0, Relation.TransGen.head e01 (Relation.TransGen.single e10)⟩

/-- Witness for C8 at the crate's own mutual-dependency fixture. -/
theorem C8_cycle_error_witness :
    (∃ i, Relation.TransGen (edgeI mAB.repos) i i) ∧
    (∃ j, Relation.TransGen (edgeI mAB.repos) j j ∧
      resolve_build_order mAB = .error (.cycle ((mAB.repos.getD j default).name)) ∧
      resolve_build_levels mAB = .error (.cycle ((mAB.repos.getD j default).name)) ∧
      (∀ env tgt rt cf, build env mAB tgt rt cf =
        .error (.cycle ((mAB.repos.getD j default).name))) ∧
      (∀ env tgt rt cf scheds, build_parallel env mAB tgt rt cf scheds =
        .error (.cycle ((mAB.repos.getD j default).name)))) :=
  ⟨mAB_cycle, C8_cycle_error mAB mAB_cycle⟩

/-- C6 counterexample: in the workspace X([Z]) / Y / Z the repositories
Y (input position 1) and Z (input position 2) have no dependency path
between them in either direction, yet Z appears before Y in the resolved
order, because Z is pulled forward as a dependency of X.  This refutes
the claim that ties among independent repositories are broken by input
position. -/
theorem C6_counterexample :
    resolve_build_order_idx mC6 = .ok [2, 0, 1] ∧
    (∀ b, ¬ Relation.TransGen (edgeI mC6.repos) 1 b) ∧
    (∀ b, ¬ Relation.TransGen (edgeI mC6.repos) 2 b) ∧
    idxIn [2, 0, 1] 2 < idxIn [2, 0, 1] 1 := by
  refine ⟨rfl, ?_, ?_, by decide⟩
  · refine no_transGen_of_no_edge ?_
    intro b hb
    rcases hb with ⟨dep, hdep, _⟩
    have : (mC6.repos.getD 1 default).depends_on = [] := rfl
    rw [this] at hdep
    cases hdep
  · refine no_transGen_of_no_edge ?_
    intro b hb
    rcases hb with ⟨dep, hdep, _⟩
    have : (mC6.repos.getD 2 default).depends_on = [] := rfl
    rw [this] at hdep
    cases hdep

/-- C6 (amended): order resolution is deterministic and depends only on
the ordered repository list: two manifests with the same `repos` resolve
to identical orders.  (The input-position tie-break for independent
repositories does not hold; see the counterexample.) -/
theorem C6_order_deterministic (m1 m2 : WorkspaceManifest) (h : m1.repos = m2.repos) :
    resolve_build_order_idx m1 = resolve_build_order_idx m2 ∧
    resolve_build_order m1 = resolve_build_order m2 := by
  unfold resolve_build_order resolve_build_order_idx
  rw [h]
  exact ⟨rfl, rfl⟩

/-- Witness for the amended C6 theorem. -/
theorem C6_order_deterministic_witness :
    mW1.repos = mW2.repos ∧
    resolve_build_order_idx mW1 = resolve_build_order_idx mW2 ∧
    resolve_build_order mW1 = resolve_build_order mW2 :=
  ⟨rfl, C6_order_deterministic mW1 mW2 rfl⟩

/-! ### `collect_deps`: reachability -/

theorem collectFold_cons (d : String) (rest deps stk : List String) :
    collectFold (d :: rest) deps stk =
      if deps.contains d then collectFold rest deps stk
      else collectFold rest (deps ++ [d]) (d :: stk) := by
  by_cases hc : deps.contains d = true
  · simp only [collectFold, List.foldl_cons, hc, if_true]
  · simp only [collectFold, List.foldl_cons, hc]
    simp

theorem collectFold_spec (depList : List String) : ∀ deps stk,
    (∃ k, (collectFold depList deps stk).1.length = deps.length + k ∧
      (collectFold depList deps stk).2.length = stk.length + k) ∧
    (deps.Nodup → (collectFold depList deps stk).1.Nodup) ∧
    (∀ x ∈ (collectFold depList deps stk).1, x ∈ deps ∨ x ∈ depList) ∧
    (∀ x ∈ deps, x ∈ (collectFold depList deps stk).1) ∧
    (∀ x ∈ (collectFold depList deps stk).2,
      x ∈ stk ∨ x ∈ (collectFold depList deps stk).1) ∧
    (∀ d ∈ depList, d ∈ (collectFold depList deps stk).1) ∧
    (∀ x ∈ stk, x ∈ (collectFold depList deps stk).2) ∧
    (∀ x ∈ (collectFold depList deps stk).1,
      x ∈ deps ∨ x ∈ (collectFold depList deps stk).2) := by
  induction depList with
  | nil =>
    intro deps stk
    refine ⟨⟨0, by simp [collectFold], by simp [collectFold]⟩, fun h => h, ?_, ?_, ?_, ?_, ?_, ?_⟩
    · intro x hx; exact Or.inl hx
    · intro x hx; exact hx
    · intro x hx; exact Or.inl hx
    · intro d hd; cases hd
    · intro x hx; exact hx
    · intro x hx; exact Or.inl hx
  | cons d rest ih =>
    intro deps stk
    rw [collectFold_cons]
    by_cases hc : deps.contains d = true
    · rw [if_pos hc]
      rcases ih deps stk with ⟨hk, hnd, hsub, hmono, hstk, hall, hstkm, hnew⟩
      refine ⟨hk, hnd, ?_, hmono, hstk, ?_, hstkm, hnew⟩
      · intro x hx
        rcases hsub x hx with h' | h'
        · exact Or.inl h'
        · exact Or.inr (List.mem_cons_of_mem _ h')
      · intro d' hd'
        rcases List.mem_cons.mp hd' with he | he
        · subst he
          exact hmono d' (List.elem_iff.mp hc)
        · exact hall d' he
    · rw [if_neg hc]
      rcases ih (deps ++ [d]) (d :: stk) with
        ⟨⟨k, hk1, hk2⟩, hnd, hsub, hmono, hstk, hall, hstkm, hnew⟩
      have hdm : d ∈ (collectFold rest (deps ++ [d]) (d :: stk)).1 :=
        hmono d (List.mem_append.mpr (Or.inr (List.mem_singleton.mpr rfl)))
      have hds : d ∈ (collectFold rest (deps ++ [d]) (d :: stk)).2 :=
        hstkm d (List.mem_cons_self _ _)
      refine ⟨⟨k + 1, by rw [hk1]; simp; omega, by rw [hk2]; simp; omega⟩,
        ?_, ?_, ?_, ?_, ?_, ?_, ?_⟩
      · intro hdn
        exact hnd (nodup_append_singleton hdn (fun hm => hc (List.elem_iff.mpr hm)))
      · intro x hx
        rcases hsub x hx with h' | h'
        · rcases List.mem_append.mp h' with h'' | h''
          · exact Or.inl h''
          · simp at h''
            subst h''
            exact Or.inr (List.mem_cons_self _ _)
        · exact Or.inr (List.mem_cons_of_mem _ h')
      · intro x hx
        exact hmono x (List.mem_append.mpr (Or.inl hx))
      · intro x hx
        rcases hstk x hx with h' | h'
        · rcases List.mem_cons.mp h' with h'' | h''
          · subst h''
            exact Or.inr hdm
          · exact Or.inl h''
        · exact Or.inr h'
      · intro d' hd'
        rcases List.mem_cons.mp hd' with he | he
        · subst he
          exact hdm
        · exact hall d' he
      · intro x hx
        exact hstkm x (List.mem_cons_of_mem _ hx)
      · intro x hx
        rcases hnew x hx with h' | h'
        · rcases List.mem_append.mp h' with h'' | h''
          · exact Or.inl h''
          · simp at h''
            subst h''
            exact Or.inr hds
        · exact Or.inr h'

theorem nodup_subset_length {l u : List String} (hnd : l.Nodup) (hsub : ∀ x ∈ l, x ∈ u) :
    l.length ≤ u.length := by
  have h1 : l.toFinset.card = l.length := List.toFinset_card_of_nodup hnd
  have h2 : l.toFinset ⊆ u.toFinset := by
    intro a ha
    rw [List.mem_toFinset] at ha ⊢
    exact hsub a ha
  calc l.length = l.toFinset.card := h1.symm
    _ ≤ u.toFinset.card := Finset.card_le_card h2
    _ ≤ u.length := u.toFinset_card_le

theorem find_repo_mem {m : WorkspaceManifest} {x : String} {r : RepoConfig}
    (h : find_repo m x = some r) : r ∈ m.repos ∧ r.name = x := by
  constructor
  · exact List.mem_of_find?_eq_some h
  · have := List.find?_some h
    simpa using this

theorem mem_allDepNames {m : WorkspaceManifest} {r : RepoConfig} {d : String}
    (hr : r ∈ m.repos) (hd : d ∈ r.depends_on) : d ∈ allDepNames m := by
  unfold allDepNames
  rw [List.mem_flatten]
  exact ⟨r.depends_on, List.mem_map.mpr ⟨r, hr, rfl⟩, hd⟩

theorem collectLoop_spec (m : WorkspaceManifest) (name : String) :
    ∀ fuel stack deps, CollectInv m name stack deps →
      stack.length + ((allDepNames m).length - deps.length) + 1 ≤ fuel →
      (collectLoop m fuel stack deps).Nodup ∧
      (∀ x ∈ deps, x ∈ collectLoop m fuel stack deps) ∧
      (∀ x ∈ collectLoop m fuel stack deps, Relation.TransGen (edgeN m) name x) ∧
      (∀ x, (x = name ∨ x ∈ collectLoop m fuel stack deps) →
        ∀ r, find_repo m x = some r → ∀ d ∈ r.depends_on,
          d ∈ collectLoop m fuel stack deps) := by
  intro fuel
  induction fuel with
  | zero =>
    intro stack deps _ hfuel
    omega
  | succ f ih =>
    intro stack deps hInv hfuel
    obtain ⟨hnd, hmemall, hreach, hstk, hpend⟩ := hInv
    match stack with
    | [] =>
      show (deps.Nodup) ∧ _
      refine ⟨hnd, fun x hx => hx, hreach, ?_⟩
      intro x hx r hr d hd
      rcases hpend x hx with h' | h'
      · cases h'
      · exact h' r hr d hd
    | current :: rest =>
      show (collectLoop m (f + 1) (current :: rest) deps).Nodup ∧ _
      have hloop : collectLoop m (f + 1) (current :: rest) deps =
          match find_repo m current with
          | none => collectLoop m f rest deps
          | some repo =>
            let p := collectFold repo.depends_on deps rest
            collectLoop m f p.2 p.1 := rfl
      rw [hloop]
      cases hfr : find_repo m current with
      | none =>
        refine ih rest deps ⟨hnd, hmemall, hreach, ?_, ?_⟩ ?_
        · intro x hx
          exact hstk x (List.mem_cons_of_mem _ hx)
        · intro x hx
          rcases hpend x hx with h' | h'
          · rcases List.mem_cons.mp h' with h'' | h''
            · subst h''
              refine Or.inr ?_
              intro r hr
              rw [hfr] at hr
              cases hr
            · exact Or.inl h''
          · exact Or.inr h'
        · simp only [List.length_cons] at hfuel
          omega
      | some repo =>
        rcases find_repo_mem hfr with ⟨hrm, hrname⟩
        rcases collectFold_spec repo.depends_on deps rest with
          ⟨⟨k, hk1, hk2⟩, hfnd, hfsub, hfmono, hfstk, hfall, hfstkm, hfnew⟩
        have hcur : current = name ∨ current ∈ deps := hstk current (List.mem_cons_self _ _)
        have hreach' : ∀ x ∈ (collectFold repo.depends_on deps rest).1,
            Relation.TransGen (edgeN m) name x := by
          intro x hx
          rcases hfsub x hx with h' | h'
          · exact hreach x h'
          · have hedge : edgeN m current x := ⟨repo, hfr, h'⟩
            rcases hcur with hc | hc
            · subst hc
              exact Relation.TransGen.single hedge
            · exact Relation.TransGen.tail (hreach current hc) hedge
        have hmemall' : ∀ x ∈ (collectFold repo.depends_on deps rest).1, x ∈ allDepNames m := by
          intro x hx
          rcases hfsub x hx with h' | h'
          · exact hmemall x h'
          · exact mem_allDepNames hrm h'
        have hnd' : (collectFold repo.depends_on deps rest).1.Nodup := hfnd hnd
        have hlen' : (collectFold repo.depends_on deps rest).1.length ≤
            (allDepNames m).length := nodup_subset_length hnd' hmemall'
        have hstk' : ∀ x ∈ (collectFold repo.depends_on deps rest).2,
            x = name ∨ x ∈ (collectFold repo.depends_on deps rest).1 := by
          intro x hx
          rcases hfstk x hx with h' | h'
          · rcases hstk x (List.mem_cons_of_mem _ h') with h'' | h''
            · exact Or.inl h''
            · exact Or.inr (hfmono x h'')
          · exact Or.inr h'
        have hpend' : ∀ x, (x = name ∨ x ∈ (collectFold repo.depends_on deps rest).1) →
            x ∈ (collectFold repo.depends_on deps rest).2 ∨
            (∀ r, find_repo m x = some r → ∀ d ∈ r.depends_on,
              d ∈ (collectFold repo.depends_on deps rest).1) := by
          intro x hx
          rcases hx with hx | hx
          · by_cases hcn : x = current
            · refine Or.inr ?_
              intro r hr d hd
              rw [hcn, hfr] at hr
              cases hr
              exact hfall d hd
            · rcases hpend x (Or.inl hx) with h' | h'
              · rcases List.mem_cons.mp h' with h'' | h''
                · exact absurd h'' hcn
                · exact Or.inl (hfstkm x h'')
              · refine Or.inr ?_
                intro r hr d hd
                exact hfmono d (h' r hr d hd)
          · rcases hfnew x hx with h' | h'
            · by_cases hcn : x = current
              · refine Or.inr ?_
                intro r hr d hd
                rw [hcn, hfr] at hr
                cases hr
                exact hfall d hd
              · rcases hpend x (Or.inr h') with h'' | h''
                · rcases List.mem_cons.mp h'' with h3 | h3
                  · exact absurd h3 hcn
                  · exact Or.inl (hfstkm x h3)
                · refine Or.inr ?_
                  intro r hr d hd
                  exact hfmono d (h'' r hr d hd)
            · exact Or.inl h'
        have hfuel' : (collectFold repo.depends_on deps rest).2.length +
            ((allDepNames m).length - (collectFold repo.depends_on deps rest).1.length) + 1
            ≤ f := by
          rw [hk2, hk1]
          rw [hk1] at hlen'
          simp only [List.length_cons] at hfuel
          omega
        rcases ih _ _ ⟨hnd', hmemall', hreach', hstk', hpend'⟩ hfuel' with ⟨ha, hb, hc2, hd2⟩
        exact ⟨ha, fun x hx => hb x (hfmono x hx), hc2, hd2⟩

/-- `collect_deps` computes exactly the names reachable from `name` in
one or more `depends_on` steps, without duplicates. -/
theorem collect_deps_iff (m : WorkspaceManifest) (name : String) :
    (∀ d, d ∈ collect_deps m name ↔ Relation.TransGen (edgeN m) name d) ∧
    (collect_deps m name).Nodup := by
  have hInv : CollectInv m name [name] [] := by
    refine ⟨List.nodup_nil, ?_, ?_, ?_, ?_⟩
    · intro x hx
      cases hx
    · intro x hx
      cases hx
    · intro x hx
      rcases List.mem_cons.mp hx with h | h
      · exact Or.inl h
      · cases h
    · intro x hx
      rcases hx with hx | hx
      · exact Or.inl (by rw [hx]; exact List.mem_cons_self _ _)
      · cases hx
  have hfuel : [name].length + ((allDepNames m).length - ([] : List String).length) + 1 ≤
      (allDepNames m).length + 2 := by
    simp
    omega
  rcases collectLoop_spec m name _ _ _ hInv hfuel with ⟨hnd, _, hreach, hclosed⟩
  refine ⟨?_, hnd⟩
  intro d
  constructor
  · exact hreach d
  · intro hd
    induction hd with
    | single he =>
      rcases he with ⟨r, hr, hdep⟩
      exact hclosed name (Or.inl rfl) r hr _ hdep
    | tail h1 he ih =>
      rcases he with ⟨r, hr, hdep⟩
      exact hclosed _ (Or.inr ih) r hr _ hdep

/-- A target that resolves to no descriptor has no outgoing edges, so
its transitive dependency set is empty. -/
theorem collect_deps_unknown (m : WorkspaceManifest) (name : String)
    (h : find_repo m name = none) : collect_deps m name = [] := by
  rcases collect_deps_iff m name with ⟨hiff, _⟩
  rw [List.eq_nil_iff_forall_not_mem]
  intro d hd
  rcases Relation.TransGen.head'_iff.mp ((hiff d).mp hd) with ⟨c, hc, _⟩
  rcases hc with ⟨r, hr, _⟩
  rw [h] at hr
  cases hr

/-- C7 (amended): `collect_deps` returns, without duplicates, exactly
the set of repository names reachable from the target by one or more
`depends_on` edges; on acyclic graphs this excludes the target, but when
the target lies on a dependency cycle through itself it is included. -/
theorem C7_collect_deps_closure (m : WorkspaceManifest) (name : String) :
    (∀ d, d ∈ collect_deps m name ↔ Relation.TransGen (edgeN m) name d) ∧
    (collect_deps m name).Nodup :=
  collect_deps_iff m name

/-- C7 counterexample: on the cyclic workspace A([B]) / B([A]) the walk
for target "A" returns ["B", "A"], which contains the target itself,
contradicting the claim that the target is excluded regardless of graph
shape. -/
theorem C7_counterexample :
    collect_deps mAB "A" = ["B", "A"] ∧ "A" ∈ collect_deps mAB "A" := by
  have h : collect_deps mAB "A" = ["B", "A"] := rfl
  refine ⟨h, ?_⟩
  rw [h]
  simp

/-- If the target filter retains nothing from any level, the level loop
does nothing. -/
theorem runLevels_all_filtered {env : Env} {rt : Bool} {ts : List String} :
    ∀ lvls scheds (failed : Bool) results,
      (∀ lvl ∈ lvls, ∀ r ∈ lvl, ts.contains r.name = false) →
      runLevels env rt (some ts) lvls scheds failed results = (failed, results) := by
  intro lvls
  induction lvls with
  | nil =>
    intro scheds failed results _
    rfl
  | cons lvl rest ih =>
    intro scheds failed results hf
    simp only [runLevels]
    by_cases hfl : failed = true
    · rw [if_pos hfl]
    · rw [if_neg hfl]
      have hempty : filterT (some ts) lvl = [] := by
        unfold filterT
        rw [List.filter_eq_nil_iff]
        intro r hr
        simp only
        rw [hf lvl (List.mem_cons_self _ _) r hr]
        simp
      rw [hempty]
      simp only [List.isEmpty_nil, if_true]
      exact ih scheds failed results (fun l hl => hf l (List.mem_cons_of_mem _ hl))

theorem getD_mem {α : Type _} (l : List α) (i : Nat) (d : α) (h : i < l.length) :
    l.getD i d ∈ l := by
  induction l generalizing i with
  | nil => simp at h
  | cons a t ih =>
    cases i with
    | zero => exact List.mem_cons_self _ _
    | succ k => exact List.mem_cons_of_mem _ (ih k (by simpa using h))

/-- Every repository of a successfully resolved order belongs to the
manifest. -/
theorem resolve_order_mem {m : WorkspaceManifest} {l : List RepoConfig}
    (h : resolve_build_order m = .ok l) : ∀ r ∈ l, r ∈ m.repos := by
  unfold resolve_build_order at h
  split at h
  · cases h
  · rename_i ord hr
    cases h
    intro r hrm
    rcases List.mem_map.mp hrm with ⟨i, hi, rfl⟩
    rcases resolve_idx_ok_spec hr with ⟨_, hmem, _⟩
    exact getD_mem _ _ _ ((hmem i).mp hi)

theorem placeRepo_mem {levels : List (List RepoConfig)} {repo : RepoConfig} :
    ∀ lvl ∈ placeRepo levels repo, ∀ r ∈ lvl, (∃ l0 ∈ levels, r ∈ l0) ∨ r = repo := by
  intro lvl hlvl r hr
  unfold placeRepo at hlvl
  set ls := if levels.length ≤ levelFor levels repo then
    levels ++ List.replicate (levelFor levels repo + 1 - levels.length) [] else levels with hls
  have hmem_ls : ∀ l0 ∈ ls, l0 ∈ levels ∨ l0 = ([] : List RepoConfig) := by
    intro l0 hl0
    rw [hls] at hl0
    by_cases hc : levels.length ≤ levelFor levels repo
    · rw [if_pos hc] at hl0
      rcases List.mem_append.mp hl0 with h' | h'
      · exact Or.inl h'
      · exact Or.inr (List.eq_of_mem_replicate h')
    · rw [if_neg hc] at hl0
      exact Or.inl hl0
  rcases List.mem_or_eq_of_mem_set hlvl with h' | h'
  · rcases hmem_ls lvl h' with h'' | h''
    · exact Or.inl ⟨lvl, h'', hr⟩
    · rw [h''] at hr
      cases hr
  · subst h'
    rcases List.mem_append.mp hr with h'' | h''
    · by_cases hlt : levelFor levels repo < ls.length
      · rcases hmem_ls _ (getD_mem ls (levelFor levels repo) [] hlt) with h3 | h3
        · exact Or.inl ⟨_, h3, h''⟩
        · rw [h3] at h''
          cases h''
      · rw [getD_of_length_le ls _ _ (Nat.le_of_not_lt hlt)] at h''
        cases h''
    · simp at h''
      exact Or.inr h''

theorem foldl_placeRepo_mem :
    ∀ (ord : List RepoConfig) (levels0 : List (List RepoConfig)),
      ∀ lvl ∈ ord.foldl placeRepo levels0, ∀ r ∈ lvl,
        (∃ l0 ∈ levels0, r ∈ l0) ∨ r ∈ ord := by
  intro ord
  induction ord with
  | nil =>
    intro levels0 lvl hlvl r hr
    exact Or.inl ⟨lvl, hlvl, hr⟩
  | cons repo rest ih =>
    intro levels0 lvl hlvl r hr
    simp only [List.foldl_cons] at hlvl
    rcases ih (placeRepo levels0 repo) lvl hlvl r hr with ⟨l0, hl0, hrl0⟩ | h'
    · rcases placeRepo_mem l0 hl0 r hrl0 with h'' | h''
      · exact Or.inl h''
      · exact Or.inr (h'' ▸ List.mem_cons_self _ _)
    · exact Or.inr (List.mem_cons_of_mem _ h')

/-- Every repository of every resolved level belongs to the manifest. -/
theorem levels_mem {m : WorkspaceManifest} {lvls : List (List RepoConfig)}
    (h : resolve_build_levels m = .ok lvls) : ∀ lvl ∈ lvls, ∀ r ∈ lvl, r ∈ m.repos := by
  unfold resolve_build_levels at h
  split at h
  · cases h
  · rename_i ord hr
    cases h
    intro lvl hlvl r hrm
    rcases foldl_placeRepo_mem ord [] lvl hlvl r hrm with ⟨l0, hl0, _⟩ | h'
    · cases hl0
    · exact resolve_order_mem hr r h'

/-- A parallel build scoped to a target name matching no descriptor
filters away every repository and returns an empty successful report. -/
theorem build_parallel_unknown (env : Env) (m : WorkspaceManifest) (name : String)
    (rt cf : Bool) (scheds : List (List Nat)) (lvls : List (List RepoConfig))
    (hnf : find_repo m name = none) (hlv : resolve_build_levels m = .ok lvls) :
    build_parallel env m (some name) rt cf scheds = .ok ⟨[], 0, true⟩ := by
  have hnames : ∀ r ∈ m.repos, r.name ≠ name := by
    intro r hr he
    have := List.find?_eq_none.mp hnf r hr
    simp [he] at this
  have hrun : runLevels env rt (some (name :: collect_deps m name)) lvls scheds false []
      = (false, []) := by
    rw [collect_deps_unknown m name hnf]
    apply runLevels_all_filtered
    intro lvl hl r hr
    have hrm : r ∈ m.repos := levels_mem hlv lvl hl r hr
    have hne : r.name ∉ [name] := by
      simp
      exact fun he => hnames r hrm he
    rw [Bool.eq_false_iff]
    intro hc
    exact hne (List.elem_iff.mp hc)
  unfold build_parallel
  rw [hlv]
  simp only [Option.map]
  rw [hrun]
  rfl

/-- C10: on a manifest whose levels resolve, a parallel build scoped to
a target name matching no descriptor returns Ok with an empty results
list and `all_passed = true`, not an error. -/
theorem C10_parallel_unknown_target (env : Env) (m : WorkspaceManifest) (name : String)
    (rt cf : Bool) (scheds : List (List Nat)) (lvls : List (List RepoConfig))
    (hnf : find_repo m name = none) (hlv : resolve_build_levels m = .ok lvls) :
    build_parallel env m (some name) rt cf scheds = .ok ⟨[], 0, true⟩ :=
  build_parallel_unknown env m name rt cf scheds lvls hnf hlv

/-- Witness for C10 at the crate's A/B/C fixture with target "nope". -/
theorem C10_parallel_unknown_target_witness :
    find_repo mABC "nope" = none ∧
    resolve_build_levels mABC =
      .ok [[mkRepo "A" []], [mkRepo "B" ["A"]], [mkRepo "C" ["A", "B"]]] ∧
    build_parallel envAllOk mABC (some "nope") false false [] = .ok ⟨[], 0, true⟩ :=
  ⟨rfl, rfl, C10_parallel_unknown_target envAllOk mABC "nope" false false [] _ rfl rfl⟩

/-- C1 (amended): when the order resolves and the requested target
matches no descriptor, the sequential entry point fails fast with a
`notFound` error and no report, but the parallel entry point performs no
such check and instead returns an empty successful report. -/
theorem C1_unknown_target (env : Env) (m : WorkspaceManifest) (name : String)
    (rt cf : Bool) (scheds : List (List Nat)) (ord : List RepoConfig)
    (hord : resolve_build_order m = .ok ord) (hnf : find_repo m name = none) :
    build env m (some name) rt cf = .error (.notFound name) ∧
    build_parallel env m (some name) rt cf scheds = .ok ⟨[], 0, true⟩ := by
  constructor
  · unfold build seqList
    rw [hord]
    simp only [hnf]
  · have hlv : resolve_build_levels m = .ok (ord.foldl placeRepo []) := by
      unfold resolve_build_levels
      rw [hord]
    exact build_parallel_unknown env m name rt cf scheds _ hnf hlv

/-- Witness for the amended C1 at the crate's A/B/C fixture. -/
theorem C1_unknown_target_witness :
    resolve_build_order mABC = .ok [mkRepo "A" [], mkRepo "B" ["A"], mkRepo "C" ["A", "B"]] ∧
    find_repo mABC "nope" = none ∧
    build envAllOk mABC (some "nope") false false = .error (.notFound "nope") ∧
    build_parallel envAllOk mABC (some "nope") false false [] = .ok ⟨[], 0, true⟩ :=
  ⟨rfl, rfl,
    (C1_unknown_target envAllOk mABC "nope" false false [] _ rfl rfl).1,
    (C1_unknown_target envAllOk mABC "nope" false false [] _ rfl rfl).2⟩

/-- C1 counterexample: on the acyclic A/B/C workspace with unknown
target "nope", the parallel entry point does not fail with a NotFound
error: it returns Ok with an empty report, refuting the claim that both
entry points fail with NotFound. -/
theorem C1_counterexample :
    find_repo mABC "nope" = none ∧
    build_parallel envAllOk mABC (some "nope") false false [] = .ok ⟨[], 0, true⟩ := by
  exact ⟨rfl, rfl⟩

/-! ### Sequential engine -/

theorem seqResultsOk_nil (env : Env) (rt : Bool) : seqResultsOk env rt [] = [] := by
  unfold seqResultsOk
  by_cases h : rt = true
  · rw [if_pos h]
    rfl
  · rw [if_neg h]
    rfl

theorem seqResultsOk_length (env : Env) (rt : Bool) (pre : List RepoConfig) :
    (seqResultsOk env rt pre).length = if rt then 2 * pre.length else pre.length := by
  unfold seqResultsOk
  by_cases h : rt = true
  · rw [if_pos h, if_pos h]
    induction pre with
    | nil => rfl
    | cons r t ih =>
      simp only [List.map_cons, List.flatten_cons, List.length_append, List.length_cons] at ih ⊢
      simp at ih ⊢
      omega
  · rw [if_neg h, if_neg h]
    simp

theorem seqResultsOk_all (env : Env) (rt : Bool) (pre : List RepoConfig)
    (h : ∀ r ∈ pre, (build_one_repo env r).success = true ∧
      (rt = true → (test_one_repo env r).success = true)) :
    (seqResultsOk env rt pre).all (fun r => r.success) = true := by
  unfold seqResultsOk
  by_cases hrt : rt = true
  · rw [if_pos hrt]
    rw [List.all_eq_true]
    intro x hx
    rcases List.mem_flatten.mp hx with ⟨l, hl, hxl⟩
    rcases List.mem_map.mp hl with ⟨r, hr, rfl⟩
    rcases List.mem_cons.mp hxl with he | he
    · subst he
      exact (h r hr).1
    · simp at he
      subst he
      exact (h r hr).2 hrt
  · rw [if_neg hrt]
    rw [List.all_eq_true]
    intro x hx
    rcases List.mem_map.mp hx with ⟨r, hr, rfl⟩
    exact (h r hr).1

/-- Sequential loop on a list whose prefix fully passes and whose next
repository's build fails: the loop records the prefix results and the
failing build result and stops. -/
theorem seqRun_fail_at (env : Env) (rt cf : Bool) :
    ∀ (pre : List RepoConfig) (bad : RepoConfig) (rest : List RepoConfig),
      (∀ r ∈ pre, cleanStep env cf r = .ok () ∧ (build_one_repo env r).success = true ∧
        (rt = true → (test_one_repo env r).success = true)) →
      cleanStep env cf bad = .ok () →
      (build_one_repo env bad).success = false →
      seqRun env rt cf (pre ++ bad :: rest) =
        .ok (seqResultsOk env rt pre ++ [build_one_repo env bad]) := by
  intro pre
  induction pre with
  | nil =>
    intro bad rest _ hclean hfail
    rw [List.nil_append]
    simp only [seqRun, hclean, hfail]
    rw [seqResultsOk_nil]
    simp [hfail]
  | cons r pre' ih =>
    intro bad rest hpre hclean hfail
    rcases hpre r (List.mem_cons_self _ _) with ⟨hrc, hrb, hrt⟩
    have hrest := ih bad rest (fun a ha => hpre a (List.mem_cons_of_mem _ ha)) hclean hfail
    rw [List.cons_append]
    simp only [seqRun, hrc, hrb]
    by_cases hb : rt = true
    · subst hb
      simp only [hrt rfl, if_true]
      rw [hrest]
      simp only
      unfold seqResultsOk
      simp
    · simp only [Bool.not_eq_true] at hb
      subst hb
      simp only [Bool.false_eq_true, if_false]
      rw [hrest]
      simp only
      unfold seqResultsOk
      simp

/-- Sequential loop: a clean failure anywhere after a fully passing
prefix aborts the whole loop with the clean error, discarding all
accumulated results. -/
theorem seqRun_clean_abort (env : Env) (rt cf : Bool) :
    ∀ (pre : List RepoConfig) (bad : RepoConfig) (rest : List RepoConfig) (e : BuildError),
      (∀ r ∈ pre, cleanStep env cf r = .ok () ∧ (build_one_repo env r).success = true ∧
        (rt = true → (test_one_repo env r).success = true)) →
      cleanStep env cf bad = .error e →
      seqRun env rt cf (pre ++ bad :: rest) = .error e := by
  intro pre
  induction pre with
  | nil =>
    intro bad rest e _ hclean
    rw [List.nil_append]
    simp only [seqRun, hclean]
  | cons r pre' ih =>
    intro bad rest e hpre hclean
    rcases hpre r (List.mem_cons_self _ _) with ⟨hrc, hrb, hrt⟩
    have hrest := ih bad rest e (fun a ha => hpre a (List.mem_cons_of_mem _ ha)) hclean
    rw [List.cons_append]
    simp only [seqRun, hrc, hrb]
    by_cases hb : rt = true
    · subst hb
      simp only [hrt rfl, Bool.not_true, Bool.false_eq_true, if_false, hrest]
      simp
    · simp only [Bool.not_eq_true] at hb
      subst hb
      simp only [Bool.not_true, Bool.false_eq_true, if_false, hrest]

/-- C5 (amended): if the sequential list resolves to a passing prefix
`pre` followed by a repository whose build fails, the sequential engine
returns a report containing exactly the prefix results plus the single
failing build result — `pre.length + 1` entries without tests,
`2 * pre.length + 1` entries with tests — with `all_passed = false`; no
repository after the failing one contributes any result. -/
theorem C5_sequential_short_circuit (env : Env) (m : WorkspaceManifest) (tgt : Option String)
    (rt cf : Bool) (pre : List RepoConfig) (bad : RepoConfig) (rest : List RepoConfig)
    (hlist : seqList m tgt = .ok (pre ++ bad :: rest))
    (hpre : ∀ r ∈ pre, cleanStep env cf r = .ok () ∧ (build_one_repo env r).success = true ∧
      (rt = true → (test_one_repo env r).success = true))
    (hbadclean : cleanStep env cf bad = .ok ())
    (hbadfail : (build_one_repo env bad).success = false) :
    build env m tgt rt cf =
      .ok ⟨seqResultsOk env rt pre ++ [build_one_repo env bad], 0, false⟩ ∧
    (seqResultsOk env rt pre ++ [build_one_repo env bad]).length =
      (if rt then 2 * pre.length else pre.length) + 1 := by
  have hrun := seqRun_fail_at env rt cf pre bad rest hpre hbadclean hbadfail
  constructor
  · unfold build
    rw [hlist]
    simp only [hrun]
    have hall : ((seqResultsOk env rt pre ++ [build_one_repo env bad]).all
        (fun r => r.success)) = false := by
      rw [List.all_append]
      simp [hbadfail]
    rw [hall]
  · rw [List.length_append, seqResultsOk_length]
    simp

/-- Witness for the amended C5 at a concrete three-repo workspace with
tests enabled: the failing build sits at position 3 and the report holds
2*2+1 = 5 entries. -/
theorem C5_sequential_short_circuit_witness :
    seqList mP3 none = .ok ([mkRepo "P1" [], mkRepo "P2" []] ++ mkRepo "P3" [] :: []) ∧
    (build envP3 mP3 none true false =
      .ok ⟨seqResultsOk envP3 true [mkRepo "P1" [], mkRepo "P2" []] ++
        [build_one_repo envP3 (mkRepo "P3" [])], 0, false⟩ ∧
      (seqResultsOk envP3 true [mkRepo "P1" [], mkRepo "P2" []] ++
        [build_one_repo envP3 (mkRepo "P3" [])]).length =
        (if true then 2 * 2 else 2) + 1) := by
  refine ⟨rfl, ?_⟩
  refine C5_sequential_short_circuit envP3 mP3 none true false
    [mkRepo "P1" [], mkRepo "P2" []] (mkRepo "P3" []) [] rfl ?_ rfl rfl
  intro r hr
  fin_cases hr <;> exact ⟨rfl, rfl, fun _ => rfl⟩

/-- C5 counterexample: with tests requested, two passing repositories
and a build failure at 1-based position k = 3 yield a report with 5
entries — not the k = 3 (nor k + 1 = 4) entries the claim predicts. -/
theorem C5_counterexample :
    (build envP3 mP3 none true false).map
      (fun rep => (rep.results.map (fun e => (e.repo_name, e.success)), rep.all_passed)) =
      .ok ([("P1", true), ("P1 (test)", true), ("P2", true), ("P2 (test)", true),
        ("P3", false)], false) ∧
    (build envP3 mP3 none true false).map (fun rep => rep.results.length) = .ok 5 := by
  exact ⟨rfl, rfl⟩

/-! ### Parallel engine: clean-phase irrelevance -/

theorem build_one_congr {env1 env2 : Env} {r : RepoConfig} (h : EnvAgree env1 env2 r) :
    build_one_repo env1 r = build_one_repo env2 r := by
  unfold build_one_repo runCommand
  rw [h.1]

theorem test_one_congr {env1 env2 : Env} {r : RepoConfig} (h : EnvAgree env1 env2 r) :
    test_one_repo env1 r = test_one_repo env2 r := by
  unfold test_one_repo runCommand
  rw [h.2]

theorem setPh_mem {ths : List (RepoConfig × TPhase)} {t : Nat} {ph : TPhase}
    {S : List RepoConfig} (h : ∀ pr ∈ ths, (pr : RepoConfig × TPhase).1 ∈ S) :
    ∀ pr ∈ setPh ths t ph, (pr : RepoConfig × TPhase).1 ∈ S := by
  intro pr hpr
  unfold setPh at hpr
  split at hpr
  · rename_i pr0 hget
    rcases List.mem_or_eq_of_mem_set hpr with h' | h'
    · exact h pr h'
    · subst h'
      exact h pr0 (List.get?_mem hget)
  · exact h pr hpr

theorem pstep_threads_sub {env : Env} {rt : Bool} {S : List RepoConfig} :
    ∀ st t, (∀ pr ∈ st.threads, (pr : RepoConfig × TPhase).1 ∈ S) →
      ∀ pr ∈ (pstep env rt st t).threads, (pr : RepoConfig × TPhase).1 ∈ S := by
  intro st t hth
  cases hget : st.threads.get? t with
  | none => simp only [pstep, hget]; exact hth
  | some pr0 =>
    obtain ⟨r0, ph0⟩ := pr0
    cases ph0 with
    | finished => simp only [pstep, hget]; exact hth
    | start =>
      simp only [pstep, hget]
      by_cases hf : st.failed = true
      · rw [if_pos hf]
        exact setPh_mem hth
      · rw [if_neg hf]
        exact setPh_mem hth
    | building =>
      simp only [pstep, hget]
      by_cases hb : (build_one_repo env r0).success = true
      · rw [if_pos hb]
        by_cases hrt : rt = true
        · rw [if_pos hrt]
          exact setPh_mem hth
        · rw [if_neg hrt]
          exact setPh_mem hth
      · rw [if_neg hb]
        exact setPh_mem hth
    | testing =>
      simp only [pstep, hget]
      exact setPh_mem hth

theorem pstep_congr {env1 env2 : Env} {rt : Bool} {S : List RepoConfig}
    (hS : ∀ r ∈ S, EnvAgree env1 env2 r) :
    ∀ st t, (∀ pr ∈ st.threads, (pr : RepoConfig × TPhase).1 ∈ S) →
      pstep env1 rt st t = pstep env2 rt st t := by
  intro st t hth
  cases hget : st.threads.get? t with
  | none => simp only [pstep, hget]
  | some pr0 =>
    obtain ⟨r0, ph0⟩ := pr0
    have hr : r0 ∈ S := hth (r0, ph0) (List.get?_mem hget)
    cases ph0 with
    | finished => simp only [pstep, hget]
    | start => simp only [pstep, hget]
    | building =>
      simp only [pstep, hget]
      rw [build_one_congr (hS r0 hr)]
    | testing =>
      simp only [pstep, hget]
      rw [test_one_congr (hS r0 hr)]

theorem foldl_pstep_congr {env1 env2 : Env} {rt : Bool} {S : List RepoConfig}
    (hS : ∀ r ∈ S, EnvAgree env1 env2 r) :
    ∀ (sched : List Nat) st, (∀ pr ∈ st.threads, (pr : RepoConfig × TPhase).1 ∈ S) →
      sched.foldl (pstep env1 rt) st = sched.foldl (pstep env2 rt) st ∧
      (∀ pr ∈ (sched.foldl (pstep env1 rt) st).threads,
        (pr : RepoConfig × TPhase).1 ∈ S) := by
  intro sched
  induction sched with
  | nil => intro st hth; exact ⟨rfl, hth⟩
  | cons t rest ih =>
    intro st hth
    simp only [List.foldl_cons]
    have h1 := @pstep_congr env1 env2 rt _ hS st t hth
    have h2 := @pstep_threads_sub env1 rt _ st t hth
    rcases ih (pstep env1 rt st t) h2 with ⟨he, hsub⟩
    rw [← h1]
    exact ⟨he, hsub⟩

theorem drain3_congr {env1 env2 : Env} {rt : Bool} {S : List RepoConfig}
    (hS : ∀ r ∈ S, EnvAgree env1 env2 r) :
    ∀ st t, (∀ pr ∈ st.threads, (pr : RepoConfig × TPhase).1 ∈ S) →
      drain3 env1 rt st t = drain3 env2 rt st t ∧
      (∀ pr ∈ (drain3 env1 rt st t).threads, (pr : RepoConfig × TPhase).1 ∈ S) := by
  intro st t hth
  unfold drain3
  have e1 := @pstep_congr env1 env2 rt _ hS st t hth
  have s1 := @pstep_threads_sub env1 rt _ st t hth
  have e2 := @pstep_congr env1 env2 rt _ hS _ t s1
  have s2 := @pstep_threads_sub env1 rt _ _ t s1
  have e3 := @pstep_congr env1 env2 rt _ hS _ t s2
  have s3 := @pstep_threads_sub env1 rt _ _ t s2
  rw [← e1, ← e2, ← e3]
  exact ⟨rfl, s3⟩

theorem foldl_drain3_congr {env1 env2 : Env} {rt : Bool} {S : List RepoConfig}
    (hS : ∀ r ∈ S, EnvAgree env1 env2 r) :
    ∀ (idxs : List Nat) st, (∀ pr ∈ st.threads, (pr : RepoConfig × TPhase).1 ∈ S) →
      idxs.foldl (drain3 env1 rt) st = idxs.foldl (drain3 env2 rt) st := by
  intro idxs
  induction idxs with
  | nil => intro st _; rfl
  | cons t rest ih =>
    intro st hth
    simp only [List.foldl_cons]
    rcases drain3_congr hS st t hth with ⟨he, hsub⟩
    rw [← he]
    exact ih _ hsub

theorem runLevelThreads_congr {env1 env2 : Env} {rt : Bool} {repos : List RepoConfig}
    (hS : ∀ r ∈ repos, EnvAgree env1 env2 r) (sched : List Nat)
    (results0 : List BuildResult) :
    runLevelThreads env1 rt repos sched results0 =
      runLevelThreads env2 rt repos sched results0 := by
  unfold runLevelThreads
  have hth : ∀ pr ∈ repos.map (fun r => (r, TPhase.start)),
      (pr : RepoConfig × TPhase).1 ∈ repos := by
    intro pr hpr
    rcases List.mem_map.mp hpr with ⟨r, hr, rfl⟩
    exact hr
  have hfc := @foldl_pstep_congr env1 env2 rt _ hS sched
    ⟨repos.map (fun r => (r, TPhase.start)), false, results0⟩ hth
  rcases hfc with ⟨he, hsub⟩
  dsimp only
  rw [← he]
  rw [foldl_drain3_congr hS (List.range repos.length) _ hsub]

theorem runLevels_congr {env1 env2 : Env} {rt : Bool} {tset : Option (List String)} :
    ∀ (lvls : List (List RepoConfig)) scheds (failed : Bool) results,
      (∀ lvl ∈ lvls, ∀ r ∈ lvl, EnvAgree env1 env2 r) →
      runLevels env1 rt tset lvls scheds failed results =
        runLevels env2 rt tset lvls scheds failed results := by
  intro lvls
  induction lvls with
  | nil => intro scheds failed results _; rfl
  | cons lvl rest ih =>
    intro scheds failed results hagree
    simp only [runLevels]
    by_cases hf : failed = true
    · rw [if_pos hf, if_pos hf]
    · rw [if_neg hf, if_neg hf]
      have hfl : ∀ r ∈ filterT tset lvl, EnvAgree env1 env2 r := by
        intro r hr
        exact hagree lvl (List.mem_cons_self _ _) r (List.mem_of_mem_filter hr)
      by_cases he : (filterT tset lvl).isEmpty = true
      · rw [if_pos he, if_pos he]
        exact ih scheds failed results (fun l hl => hagree l (List.mem_cons_of_mem _ hl))
      · rw [if_neg he, if_neg he]
        rw [runLevelThreads_congr hfl (scheds.headD []) results]
        exact ih scheds.tail _ _ (fun l hl => hagree l (List.mem_cons_of_mem _ hl))

/-- The parallel engine's report depends only on the environment's
responses to build and test commands: the clean flag and every clean
command outcome are irrelevant (the worker discards the clean result).
-/
theorem build_parallel_clean_irrelevant (env1 env2 : Env) (m : WorkspaceManifest)
    (tgt : Option String) (rt cf1 cf2 : Bool) (scheds : List (List Nat))
    (h : ∀ r ∈ m.repos, EnvAgree env1 env2 r) :
    build_parallel env1 m tgt rt cf1 scheds = build_parallel env2 m tgt rt cf2 scheds := by
  unfold build_parallel
  cases hlv : resolve_build_levels m with
  | error e => rfl
  | ok lvls =>
    have := @runLevels_congr env1 env2 rt
      (tgt.map (fun name => name :: collect_deps m name)) lvls scheds false []
      (fun lvl hl r hr => h r (levels_mem hlv lvl hl r hr))
    simp only [this]

/-- The sequential entry point aborts with the clean error (and no
report) when a repository's clean command fails after a fully passing
prefix. -/
theorem build_clean_abort (env : Env) (m : WorkspaceManifest) (tgt : Option String)
    (rt cf : Bool) (pre : List RepoConfig) (bad : RepoConfig) (rest : List RepoConfig)
    (e : BuildError) (hlist : seqList m tgt = .ok (pre ++ bad :: rest))
    (hpre : ∀ r ∈ pre, cleanStep env cf r = .ok () ∧ (build_one_repo env r).success = true ∧
      (rt = true → (test_one_repo env r).success = true))
    (hclean : cleanStep env cf bad = .error e) :
    build env m tgt rt cf = .error e := by
  have hrun := seqRun_clean_abort env rt cf pre bad rest e hpre hclean
  unfold build
  rw [hlist]
  simp only [hrun]

/-- C2 (amended): the two engines treat clean failures asymmetrically.
In the sequential engine a clean failure aborts the entire scheduling
call with the clean error and no report (it neither appears as a
`RepoResult` nor lets the repository's build proceed), while in the
parallel engine the clean outcome is discarded: the parallel report is
entirely independent of the clean flag and of the environment's
responses to clean commands. -/
theorem C2_clean_failure_asymmetry :
    (∀ (env : Env) (m : WorkspaceManifest) (tgt : Option String) (rt cf : Bool)
      (pre : List RepoConfig) (bad : RepoConfig) (rest : List RepoConfig) (e : BuildError),
      seqList m tgt = .ok (pre ++ bad :: rest) →
      (∀ r ∈ pre, cleanStep env cf r = .ok () ∧ (build_one_repo env r).success = true ∧
        (rt = true → (test_one_repo env r).success = true)) →
      cleanStep env cf bad = .error e →
      build env m tgt rt cf = .error e) ∧
    (∀ (env1 env2 : Env) (m : WorkspaceManifest) (tgt : Option String) (rt cf1 cf2 : Bool)
      (scheds : List (List Nat)),
      (∀ r ∈ m.repos, EnvAgree env1 env2 r) →
      build_parallel env1 m tgt rt cf1 scheds = build_parallel env2 m tgt rt cf2 scheds) :=
  ⟨fun env m tgt rt cf pre bad rest e h1 h2 h3 =>
    build_clean_abort env m tgt rt cf pre bad rest e h1 h2 h3,
   fun env1 env2 m tgt rt cf1 cf2 scheds h =>
    build_parallel_clean_irrelevant env1 env2 m tgt rt cf1 cf2 scheds h⟩

/-- Witness for the amended C2: at `mClean` the sequential engine aborts
with the clean error, and the parallel engine produces identical reports
under `envCleanFail` and `envAllOk` (which differ only on the clean
command), with the clean flag set. -/
theorem C2_clean_failure_asymmetry_witness :
    build envCleanFail mClean none false true = .error (.cmd "R" "make clean" "boom") ∧
    build_parallel envCleanFail mClean none false true [[0, 0, 0]] =
      build_parallel envAllOk mClean none false false [[0, 0, 0]] := by
  constructor
  · exact C2_clean_failure_asymmetry.1 envCleanFail mClean none false true
      [] _ [] _ rfl (fun r hr => absurd hr (List.not_mem_nil r)) rfl
  · exact C2_clean_failure_asymmetry.2 envCleanFail envAllOk mClean none false true false
      [[0, 0, 0]] (fun r hr => by fin_cases hr; exact ⟨rfl, rfl⟩)

/-- C2 counterexample: with `clean_first` set and a failing clean
command, the sequential entry point aborts the whole call with an error
and returns no report at all — the clean failure is not recovered
locally — while the parallel entry point still builds the repository
and returns a successful report. -/
theorem C2_counterexample :
    build envCleanFail mClean none false true = .error (.cmd "R" "make clean" "boom") ∧
    build_parallel envCleanFail mClean none false true [[0, 0, 0]] =
      .ok ⟨[⟨"R", true, "", 0⟩], 0, true⟩ := by
  exact ⟨rfl, rfl⟩

/-! ### Parallel engine: wavefront structure -/

theorem build_one_repo_name (env : Env) (r : RepoConfig) :
    (build_one_repo env r).repo_name = r.name := by
  unfold build_one_repo
  split <;> rfl

theorem test_one_repo_name (env : Env) (r : RepoConfig) :
    (test_one_repo env r).repo_name = r.name ++ " (test)" := by
  unfold test_one_repo
  split <;> rfl

theorem pstep_stepSpec (env : Env) (rt : Bool) (S : List RepoConfig) :
    StepSpec (pstep env rt) S := by
  intro st t hth
  refine ⟨pstep_threads_sub st t hth, ?_⟩
  cases hget : st.threads.get? t with
  | none =>
    refine ⟨[], ?_, ?_, ?_⟩ <;> ((try simp only [pstep, hget]); simp)
  | some pr0 =>
    obtain ⟨r0, ph0⟩ := pr0
    have hr : r0 ∈ S := hth (r0, ph0) (List.get?_mem hget)
    cases ph0 with
    | finished =>
      refine ⟨[], ?_, ?_, ?_⟩ <;> ((try simp only [pstep, hget]); simp)
    | start =>
      by_cases hf : st.failed = true
      · refine ⟨[], ?_, ?_, ?_⟩ <;> ((try simp only [pstep, hget]); simp [hf])
      · refine ⟨[], ?_, ?_, ?_⟩ <;> ((try simp only [pstep, hget]); simp [hf])
    | building =>
      by_cases hb : (build_one_repo env r0).success = true
      · by_cases hrt : rt = true
        · refine ⟨[build_one_repo env r0], ?_, ?_, ?_⟩
          · simp only [pstep, hget]; simp [hb, hrt]
          · intro e he
            simp at he
            subst he
            exact ⟨r0, hr, Or.inl (build_one_repo_name env r0)⟩
          · simp only [pstep, hget]; simp [hb, hrt]
        · refine ⟨[build_one_repo env r0], ?_, ?_, ?_⟩
          · simp only [pstep, hget]; simp [hb, hrt]
          · intro e he
            simp at he
            subst he
            exact ⟨r0, hr, Or.inl (build_one_repo_name env r0)⟩
          · simp only [pstep, hget]; simp [hb, hrt]
      · refine ⟨[build_one_repo env r0], ?_, ?_, ?_⟩
        · simp only [pstep, hget]; simp [hb]
        · intro e he
          simp at he
          subst he
          exact ⟨r0, hr, Or.inl (build_one_repo_name env r0)⟩
        · simp only [Bool.not_eq_true] at hb
          simp only [pstep, hget]
          simp [hb]
    | testing =>
      refine ⟨[test_one_repo env r0], ?_, ?_, ?_⟩
      · simp only [pstep, hget]
        try simp
      · intro e he
        simp at he
        subst he
        exact ⟨r0, hr, Or.inr (test_one_repo_name env r0)⟩
      · simp only [pstep, hget]
        try simp

theorem drain3_stepSpec (env : Env) (rt : Bool) (S : List RepoConfig) :
    StepSpec (drain3 env rt) S := by
  intro st t hth
  rcases pstep_stepSpec env rt S st t hth with ⟨hs1, n1, hr1, he1, hf1⟩
  rcases pstep_stepSpec env rt S _ t hs1 with ⟨hs2, n2, hr2, he2, hf2⟩
  rcases pstep_stepSpec env rt S _ t hs2 with ⟨hs3, n3, hr3, he3, hf3⟩
  refine ⟨hs3, n1 ++ n2 ++ n3, ?_, ?_, ?_⟩
  · unfold drain3
    rw [hr3, hr2, hr1]
    simp [List.append_assoc]
  · intro e he
    rcases List.mem_append.mp he with h' | h'
    · rcases List.mem_append.mp h' with h'' | h''
      · exact he1 e h''
      · exact he2 e h''
    · exact he3 e h'
  · unfold drain3
    rw [hf3, hf2, hf1]
    simp [List.any_append, Bool.or_assoc]

theorem foldl_stepSpec {f : PSt → Nat → PSt} {S : List RepoConfig} (hf : StepSpec f S) :
    ∀ (idxs : List Nat) st, (∀ pr ∈ st.threads, (pr : RepoConfig × TPhase).1 ∈ S) →
      (∀ pr ∈ (idxs.foldl f st).threads, (pr : RepoConfig × TPhase).1 ∈ S) ∧
      ∃ new, (idxs.foldl f st).results = st.results ++ new ∧
        (∀ e ∈ new, entryOfLevel S e) ∧
        (idxs.foldl f st).failed = (st.failed || new.any (fun e => !e.success)) := by
  intro idxs
  induction idxs with
  | nil =>
    intro st hth
    exact ⟨hth, [], by simp, by simp, by simp⟩
  | cons t rest ih =>
    intro st hth
    simp only [List.foldl_cons]
    rcases hf st t hth with ⟨hs1, n1, hr1, he1, hfl1⟩
    rcases ih (f st t) hs1 with ⟨hs2, n2, hr2, he2, hfl2⟩
    refine ⟨hs2, n1 ++ n2, ?_, ?_, ?_⟩
    · rw [hr2, hr1, List.append_assoc]
    · intro e he
      rcases List.mem_append.mp he with h' | h'
      · exact he1 e h'
      · exact he2 e h'
    · rw [hfl2, hfl1]
      simp [List.any_append, Bool.or_assoc]

/-- One level's thread scope, entered with the failure flag unset:
results are appended, every new entry belongs to the level's repos, and
the flag comes out set exactly when some new entry failed. -/
theorem runLevelThreads_spec (env : Env) (rt : Bool) (repos : List RepoConfig)
    (sched : List Nat) (results0 : List BuildResult) :
    ∃ new, (runLevelThreads env rt repos sched results0).2 = results0 ++ new ∧
      (∀ e ∈ new, entryOfLevel repos e) ∧
      (runLevelThreads env rt repos sched results0).1 = new.any (fun e => !e.success) := by
  have hth : ∀ pr ∈ (⟨repos.map (fun r => (r, TPhase.start)), false, results0⟩ : PSt).threads,
      (pr : RepoConfig × TPhase).1 ∈ repos := by
    intro pr hpr
    rcases List.mem_map.mp hpr with ⟨r, hr, rfl⟩
    exact hr
  rcases foldl_stepSpec (pstep_stepSpec env rt repos) sched _ hth with ⟨hs1, n1, hr1, he1, hf1⟩
  rcases foldl_stepSpec (drain3_stepSpec env rt repos) (List.range repos.length) _ hs1 with
    ⟨hs2, n2, hr2, he2, hf2⟩
  refine ⟨n1 ++ n2, ?_, ?_, ?_⟩
  · unfold runLevelThreads
    dsimp only
    rw [hr2, hr1]
    simp [List.append_assoc]
  · intro e he
    rcases List.mem_append.mp he with h' | h'
    · exact he1 e h'
    · exact he2 e h'
  · unfold runLevelThreads
    dsimp only
    rw [hf2, hf1]
    simp [List.any_append]

theorem runLevels_failed (env : Env) (rt : Bool) (tset : Option (List String)) :
    ∀ lvls scheds results, runLevels env rt tset lvls scheds true results = (true, results) := by
  intro lvls
  cases lvls with
  | nil => intro scheds results; rfl
  | cons lvl rest =>
    intro scheds results
    simp only [runLevels]
    simp

/-- Wavefront structure of the parallel level loop, entered unfailed:
the recorded results decompose into consecutive per-level chunks; every
chunk's entries belong to that level's filtered repositories; every
chunk before the last is fully successful; the final flag equals
"some recorded entry failed"; and the loop stops before the last level
only when the flag is set. -/
theorem runLevels_chunks (env : Env) (rt : Bool) (tset : Option (List String)) :
    ∀ (lvls : List (List RepoConfig)) scheds results0,
      ∃ chunks : List (List BuildResult),
        (runLevels env rt tset lvls scheds false results0).2 = results0 ++ chunks.flatten ∧
        chunks.length ≤ lvls.length ∧
        List.Forall₂ (fun ch lvl => ∀ e ∈ ch, entryOfLevel (filterT tset lvl) e)
          chunks (lvls.take chunks.length) ∧
        (∀ ch ∈ chunks.dropLast, ∀ e ∈ ch, e.success = true) ∧
        (runLevels env rt tset lvls scheds false results0).1 =
          chunks.flatten.any (fun e => !e.success) ∧
        (chunks.length < lvls.length →
          (runLevels env rt tset lvls scheds false results0).1 = true) := by
  intro lvls
  induction lvls with
  | nil =>
    intro scheds results0
    refine ⟨[], by simp [runLevels], by simp, by simp [List.Forall₂], by simp, by simp [runLevels], by simp⟩
  | cons lvl rest ih =>
    intro scheds results0
    simp only [runLevels]
    rw [if_neg (by simp : ¬ (false = true))]
    by_cases he : (filterT tset lvl).isEmpty = true
    · rw [if_pos he]
      rcases ih scheds results0 with ⟨chunks', h1, h2, h3, h4, h5, h6⟩
      refine ⟨[] :: chunks', by simpa using h1, by simpa using Nat.succ_le_succ h2, ?_, ?_, ?_, ?_⟩
      · simp only [List.length_cons]
        rw [List.take_succ_cons]
        exact List.Forall₂.cons (fun e he' => absurd he' (List.not_mem_nil e)) h3
      · intro ch hch e he'
        cases chunks' with
        | nil => simp at hch
        | cons c cs =>
          rw [List.dropLast_cons₂] at hch
          rcases List.mem_cons.mp hch with h' | h'
          · subst h'
            cases he'
          · exact h4 ch h' e he'
      · simpa using h5
      · intro hlt
        simp only [List.length_cons] at hlt
        exact h6 (by omega)
    · rw [if_neg he]
      rcases runLevelThreads_spec env rt (filterT tset lvl) (scheds.headD []) results0 with
        ⟨new, hnew, hent, hflag⟩
      cases hfail : (runLevelThreads env rt (filterT tset lvl) (scheds.headD []) results0).1 with
      | true =>
        rw [runLevels_failed, hnew]
        refine ⟨[new], by simp, by simp, ?_, by simp, ?_, fun _ => rfl⟩
        · simp only [List.length_cons, List.length_nil]
          rw [List.take_succ_cons, List.take_zero]
          exact List.Forall₂.cons hent List.Forall₂.nil
        · simp only [List.flatten_cons, List.flatten_nil, List.append_nil]
          rw [hfail] at hflag
          exact hflag
      | false =>
        rw [hfail] at hflag
        have hok : ∀ e ∈ new, e.success = true := by
          intro e he'
          rcases List.any_eq_false.mp hflag.symm e he' with h'
          simpa using h'
        rcases ih scheds.tail (results0 ++ new) with ⟨chunks', h1, h2, h3, h4, h5, h6⟩
        rw [hnew]
        refine ⟨new :: chunks', ?_, by simpa using Nat.succ_le_succ h2, ?_, ?_, ?_, ?_⟩
        · rw [h1, List.flatten_cons, List.append_assoc]
        · simp only [List.length_cons]
          rw [List.take_succ_cons]
          exact List.Forall₂.cons hent h3
        · intro ch hch e he'
          cases chunks' with
          | nil =>
            simp at hch
          | cons c cs =>
            rw [List.dropLast_cons₂] at hch
            rcases List.mem_cons.mp hch with h' | h'
            · subst h'
              exact hok e he'
            · exact h4 ch h' e he'
        · rw [h5, List.flatten_cons, List.any_append]
          have hanyf : (new.any fun e => !e.success) = false := hflag.symm
          rw [hanyf]
          simp
        · intro hlt
          simp only [List.length_cons] at hlt
          exact h6 (by omega)

/-- C9 (amended): the parallel report decomposes into consecutive
per-level chunks: every entry belongs to the filtered level it was
dispatched in, every chunk before the last is fully successful (a
failure only ever occurs in the last executed level, so no repository of
any later level produces any result, while siblings of the failing
repository may or may not produce a result depending on whether their
pre-work check saw the flag), and the loop stops before the last level
only when some recorded entry failed. -/
theorem C9_wavefront_isolation (env : Env) (m : WorkspaceManifest) (tgt : Option String)
    (rt cf : Bool) (scheds : List (List Nat)) (lvls : List (List RepoConfig))
    (report : BuildReport) (hlv : resolve_build_levels m = .ok lvls)
    (hrun : build_parallel env m tgt rt cf scheds = .ok report) :
    ∃ chunks : List (List BuildResult),
      report.results = chunks.flatten ∧
      chunks.length ≤ lvls.length ∧
      List.Forall₂ (fun ch lvl => ∀ e ∈ ch, entryOfLevel
        (filterT (tgt.map (fun name => name :: collect_deps m name)) lvl) e)
        chunks (lvls.take chunks.length) ∧
      (∀ ch ∈ chunks.dropLast, ∀ e ∈ ch, e.success = true) ∧
      (chunks.length < lvls.length → ∃ e ∈ chunks.flatten, e.success = false) := by
  unfold build_parallel at hrun
  rw [hlv] at hrun
  dsimp only at hrun
  have hinj := Except.ok.inj hrun
  rcases runLevels_chunks env rt (tgt.map fun name => name :: collect_deps m name)
    lvls scheds [] with ⟨chunks, h1, h2, h3, h4, h5, h6⟩
  refine ⟨chunks, ?_, h2, h3, h4, ?_⟩
  · rw [← hinj]
    simpa using h1
  · intro hlt
    have := h6 hlt
    rw [this] at h5
    rcases List.any_eq_true.mp h5.symm with ⟨e, he, hfe⟩
    refine ⟨e, he, ?_⟩
    simpa using hfe

/-- Witness for the amended C9: a concrete parallel run on the
single-level workspace P / Q under the schedule that lets P fail before
Q starts. -/
theorem C9_wavefront_isolation_witness :
    resolve_build_levels mPQ = .ok [[mkRepo "P" [], mkRepo "Q" []]] ∧
    build_parallel envPFail mPQ none false false [[0, 0]] =
      .ok ⟨[⟨"P", false, errText (.cmd "P" "cargo build" "boom"), 0⟩], 0, false⟩ ∧
    (∃ chunks : List (List BuildResult),
      (⟨[⟨"P", false, errText (.cmd "P" "cargo build" "boom"), 0⟩], 0, false⟩ :
        BuildReport).results = chunks.flatten ∧
      chunks.length ≤ [[mkRepo "P" [], mkRepo "Q" []]].length ∧
      List.Forall₂ (fun ch lvl => ∀ e ∈ ch, entryOfLevel
        (filterT ((none : Option String).map
          (fun name => name :: collect_deps mPQ name)) lvl) e)
        chunks ([[mkRepo "P" [], mkRepo "Q" []]].take chunks.length) ∧
      (∀ ch ∈ chunks.dropLast, ∀ e ∈ ch, e.success = true) ∧
      (chunks.length < [[mkRepo "P" [], mkRepo "Q" []]].length →
        ∃ e ∈ chunks.flatten, e.success = false)) :=
  ⟨rfl, rfl,
    C9_wavefront_isolation envPFail mPQ none false false [[0, 0]] _ _ rfl rfl⟩

/-- C9 counterexample: P and Q are both dispatched in level 0 and P
fails; under the schedule in which P completes before Q begins, Q's
pre-work check sees the failure flag and Q produces no result at all —
refuting the claim that every other repository dispatched in the level
still produces a result.  (Under a schedule in which Q starts first,
both repositories produce results, showing the outcome is
schedule-dependent.) -/
theorem C9_counterexample :
    resolve_build_levels mPQ = .ok [[mkRepo "P" [], mkRepo "Q" []]] ∧
    (build_parallel envPFail mPQ none false false [[0, 0]]).map
      (fun rep => rep.results.map (fun e => (e.repo_name, e.success))) =
      .ok [("P", false)] ∧
    (build_parallel envPFail mPQ none false false [[1, 1, 0, 0]]).map
      (fun rep => rep.results.map (fun e => (e.repo_name, e.success))) =
      .ok [("Q", true), ("P", false)] := by
  exact ⟨rfl, rfl, rfl⟩

/-! ### Level assignment -/

theorem levelIdxOf_none_iff (lvls : List (List RepoConfig)) (nm : String) :
    levelIdxOf lvls nm = none ↔ ∀ lvl ∈ lvls, ∀ r ∈ lvl, r.name ≠ nm := by
  induction lvls with
  | nil =>
    simp [levelIdxOf]
  | cons lvl rest ih =>
    by_cases h : lvl.any (fun r => r.name == nm) = true
    · simp only [levelIdxOf, h, if_true]
      constructor
      · intro hc
        cases hc
      · intro hall
        rcases List.any_eq_true.mp h with ⟨r, hr, he⟩
        exact absurd (by simpa using he) (hall lvl (List.mem_cons_self _ _) r hr)
    · simp only [levelIdxOf, h, Bool.false_eq_true, if_false]
      rw [Option.map_eq_none']
      rw [ih]
      constructor
      · intro hall l hl r hr
        rcases List.mem_cons.mp hl with h' | h'
        · subst h'
          intro he
          exact h (List.any_eq_true.mpr ⟨r, hr, by simpa using he⟩)
        · exact hall l h' r hr
      · intro hall l hl r hr
        exact hall l (List.mem_cons_of_mem _ hl) r hr

theorem levelIdxOf_append_empty (lvls : List (List RepoConfig)) (k : Nat) (nm : String) :
    levelIdxOf (lvls ++ List.replicate k []) nm = levelIdxOf lvls nm := by
  induction lvls with
  | nil =>
    simp only [List.nil_append, levelIdxOf]
    induction k with
    | zero => rfl
    | succ k2 ih2 =>
      simp only [List.replicate_succ, levelIdxOf, List.any_nil]
      rw [if_neg (by simp)]
      rw [ih2]
      rfl
  | cons lvl rest ih =>
    simp only [List.cons_append, levelIdxOf, List.append_eq]
    rw [ih]

theorem levelIdxOf_set_same (nm : String) :
    ∀ (lvls : List (List RepoConfig)) (i : Nat) (b : List RepoConfig),
      (b.any (fun r => r.name == nm)) = ((lvls.getD i []).any (fun r => r.name == nm)) →
      levelIdxOf (lvls.set i b) nm = levelIdxOf lvls nm := by
  intro lvls
  induction lvls with
  | nil => intro i b _; rfl
  | cons lvl rest ih =>
    intro i b hb
    cases i with
    | zero =>
      simp only [List.getD_cons_zero] at hb
      simp only [List.set_cons_zero, levelIdxOf]
      rw [hb]
    | succ k =>
      simp only [List.set_cons_succ, levelIdxOf]
      rw [ih k b (by simpa using hb)]

theorem levelIdxOf_set_new (nm : String) :
    ∀ (lvls : List (List RepoConfig)) (i : Nat) (b : List RepoConfig),
      i < lvls.length →
      (∀ lvl ∈ lvls, ∀ r ∈ lvl, r.name ≠ nm) →
      (b.any (fun r => r.name == nm)) = true →
      levelIdxOf (lvls.set i b) nm = some i := by
  intro lvls
  induction lvls with
  | nil => intro i b hi _ _; simp at hi
  | cons lvl rest ih =>
    intro i b hi hfree hb
    cases i with
    | zero =>
      simp only [List.set_cons_zero, levelIdxOf, hb, if_true]
    | succ k =>
      simp only [List.set_cons_succ, levelIdxOf]
      have hlvl : lvl.any (fun r => r.name == nm) = false := by
        rw [List.any_eq_false]
        intro r hr
        simp
        exact hfree lvl (List.mem_cons_self _ _) r hr
      rw [hlvl]
      rw [if_neg (by simp)]
      rw [ih k b (by simpa using hi) (fun l hl => hfree l (List.mem_cons_of_mem _ hl)) hb]
      rfl

/-- Placing a repository does not change the level index of any other
name. -/
theorem levelIdxOf_placeRepo_other (lvls : List (List RepoConfig)) (repo : RepoConfig)
    (nm : String) (hne : repo.name ≠ nm) :
    levelIdxOf (placeRepo lvls repo) nm = levelIdxOf lvls nm := by
  unfold placeRepo
  dsimp only
  by_cases hc : lvls.length ≤ levelFor lvls repo
  · rw [if_pos hc]
    set ls := lvls ++ List.replicate (levelFor lvls repo + 1 - lvls.length) []
    have h1 : levelIdxOf ls nm = levelIdxOf lvls nm := levelIdxOf_append_empty _ _ _
    rw [← h1]
    apply levelIdxOf_set_same
    rw [List.any_append]
    have : ([repo].any (fun r => r.name == nm)) = false := by
      simp [hne]
    rw [this]
    simp
  · rw [if_neg hc]
    apply levelIdxOf_set_same
    rw [List.any_append]
    have : ([repo].any (fun r => r.name == nm)) = false := by
      simp [hne]
    rw [this]
    simp

/-- Placing a repository whose name is not yet in the levels makes its
name resolve to the level `levelFor` computed for it. -/
theorem levelIdxOf_placeRepo_self (lvls : List (List RepoConfig)) (repo : RepoConfig)
    (hfree : ∀ lvl ∈ lvls, ∀ r ∈ lvl, r.name ≠ repo.name) :
    levelIdxOf (placeRepo lvls repo) repo.name = some (levelFor lvls repo) := by
  unfold placeRepo
  dsimp only
  by_cases hc : lvls.length ≤ levelFor lvls repo
  · rw [if_pos hc]
    apply levelIdxOf_set_new
    · simp
      omega
    · intro lvl hl r hr
      rcases List.mem_append.mp hl with h' | h'
      · exact hfree lvl h' r hr
      · rw [List.eq_of_mem_replicate h'] at hr
        cases hr
    · rw [List.any_append]
      simp
  · rw [if_neg hc]
    apply levelIdxOf_set_new
    · omega
    · exact hfree
    · rw [List.any_append]
      simp

theorem maxNat?_mem_le {l : List Nat} {x : Nat} (h : x ∈ l) :
    ∃ mx, maxNat? l = some mx ∧ x ≤ mx := by
  induction l with
  | nil => cases h
  | cons a t ih =>
    rcases List.mem_cons.mp h with he | he
    · subst he
      cases hm : maxNat? t with
      | none => exact ⟨x, by simp [maxNat?, hm], Nat.le_refl x⟩
      | some mx => exact ⟨Nat.max x mx, by simp [maxNat?, hm], Nat.le_max_left _ _⟩
    · rcases ih he with ⟨mx, hmx, hle⟩
      cases hm : maxNat? t with
      | none => rw [hm] at hmx; cases hmx
      | some mx' =>
        rw [hm] at hmx
        cases hmx
        exact ⟨Nat.max a mx, by simp [maxNat?, hm], Nat.le_trans hle (Nat.le_max_right _ _)⟩

theorem idxIn_append_cons {l1 : List Nat} {i : Nat} (l2 : List Nat) (h : i ∉ l1) :
    idxIn (l1 ++ i :: l2) i = l1.length := by
  induction l1 with
  | nil => simp [idxIn]
  | cons a t ih =>
    have ha : a ≠ i := fun he => h (he ▸ List.mem_cons_self a t)
    have ht : i ∉ t := fun hm => h (List.mem_cons_of_mem _ hm)
    simp [idxIn, ha, ih ht]

theorem mem_take_of_idxIn_lt {l : List Nat} {j p : Nat} (hj : j ∈ l) (hlt : idxIn l j < p) :
    j ∈ l.take p := by
  induction l generalizing p with
  | nil => cases hj
  | cons a t ih =>
    cases p with
    | zero => omega
    | succ q =>
      by_cases ha : a = j
      · subst ha
        simp [List.take_succ_cons]
      · have ht : j ∈ t := by
          rcases List.mem_cons.mp hj with h' | h'
          · exact absurd h'.symm ha
          · exact h'
        simp only [idxIn, ha, if_false] at hlt
        rw [List.take_succ_cons]
        exact List.mem_cons_of_mem _ (ih ht (by omega))

/-- Bridge from the index-level order specification to the repo-level
list: the resolved order has duplicate-free names, consists exactly of
the manifest's repositories, and every resolvable dependency name of an
element occurs among the names of the elements before it. -/
theorem resolve_order_topo (m : WorkspaceManifest)
    (hnd : (m.repos.map (fun r => r.name)).Nodup) {ordR : List RepoConfig}
    (h : resolve_build_order m = .ok ordR) :
    ((ordR.map (fun r => r.name)).Nodup) ∧ (∀ r ∈ ordR, r ∈ m.repos) ∧
    (∀ r ∈ m.repos, r ∈ ordR) ∧
    (∀ pre r post, ordR = pre ++ r :: post → ∀ d ∈ r.depends_on,
      posOf m.repos d ≠ none → d ∈ pre.map (fun x => x.name)) := by
  have hmo : resolve_build_order m = .ok ordR := h
  unfold resolve_build_order at hmo
  split at hmo
  · cases hmo
  · rename_i ord hidx
    cases hmo
    rcases resolve_idx_ok_spec hidx with ⟨hndi, hmem, hord⟩
    have hperm : ord.Perm (List.range m.repos.length) :=
      (List.perm_ext_iff_of_nodup hndi (List.nodup_range _)).mpr
        (fun a => by rw [hmem a, List.mem_range])
    have hpermR : (ord.map (fun i => m.repos.getD i default)).Perm m.repos := by
      have hm2 := hperm.map (fun i => m.repos.getD i default)
      rw [map_getD_range] at hm2
      exact hm2
    refine ⟨?_, ?_, ?_, ?_⟩
    · have := hpermR.map (fun r => r.name)
      exact (this.nodup_iff).mpr hnd
    · intro r hr
      exact hpermR.mem_iff.mp hr
    · intro r hr
      exact hpermR.mem_iff.mpr hr
    · intro pre r post hsplit d hd hres
      rcases List.append_eq_map_iff.mp hsplit.symm with ⟨s1, s2, hs, hs1, hs2⟩
      rcases List.map_eq_cons_iff.mp hs2 with ⟨i, s2', hs2', hfi, hmap2⟩
      cases hres2 : posOf m.repos d with
      | none => exact absurd hres2 hres
      | some j =>
        have hedge : edgeI m.repos i j := by
          refine ⟨d, ?_, hres2⟩
          rw [← hfi] at hd
          -- r = m.repos.getD i default
          exact hd
        subst hs2'
        have hi_mem : i ∈ ord := by
          rw [hs]
          exact List.mem_append.mpr (Or.inr (List.mem_cons_self _ _))
        rcases hord i hi_mem j hedge with ⟨hjmem, hlt⟩
        have hi_not_s1 : i ∉ s1 := by
          intro hmem1
          rw [hs] at hndi
          rcases List.nodup_append.mp hndi with ⟨_, _, hdisj⟩
          exact hdisj hmem1 (List.mem_cons_self _ _)
        have hidx_i : idxIn ord i = s1.length := by
          rw [hs]
          exact idxIn_append_cons _ hi_not_s1
    -- j occurs strictly before i, hence in the prefix
        have hjtake : j ∈ ord.take s1.length := by
          refine mem_take_of_idxIn_lt hjmem ?_
          rw [← hidx_i]
          exact hlt
        have hstake : ord.take s1.length = s1 := by
          rw [hs]
          rw [List.take_append_of_le_length (Nat.le_refl s1.length)]
          simp
        rw [hstake] at hjtake
        rw [← hs1]
        refine List.mem_map.mpr ⟨m.repos.getD j default, ?_, posOf_some_name hres2⟩
        exact List.mem_map.mpr ⟨j, hjtake, rfl⟩

theorem posOf_mem_ne_none {m : WorkspaceManifest} {r : RepoConfig} (hr : r ∈ m.repos) :
    posOf m.repos r.name ≠ none := by
  intro hnone
  exact posOf_none hnone r hr rfl

/-- Invariant of the level-assignment fold: processing a topologically
sorted suffix keeps every already-assigned repository at the level given
by `levelFor` over the final levels, and the level structure contains
exactly the processed names. -/
theorem assign_invariant (m : WorkspaceManifest) :
    ∀ (suffix pre : List RepoConfig) (levels : List (List RepoConfig)),
      (((pre ++ suffix).map (fun r => r.name)).Nodup) →
      (∀ r ∈ pre ++ suffix, r ∈ m.repos) →
      (∀ pre2 r post2, pre ++ suffix = pre2 ++ r :: post2 → ∀ d ∈ r.depends_on,
        posOf m.repos d ≠ none → d ∈ pre2.map (fun x => x.name)) →
      (∀ nm, (¬ levelIdxOf levels nm = none) ↔ nm ∈ pre.map (fun r => r.name)) →
      (∀ r ∈ pre, levelIdxOf levels r.name = some (levelFor levels r)) →
      (∀ nm, (¬ levelIdxOf (suffix.foldl placeRepo levels) nm = none) ↔
        nm ∈ (pre ++ suffix).map (fun r => r.name)) ∧
      (∀ r ∈ pre ++ suffix, levelIdxOf (suffix.foldl placeRepo levels) r.name =
        some (levelFor (suffix.foldl placeRepo levels) r)) := by
  intro suffix
  induction suffix with
  | nil =>
    intro pre levels hndn hmem htopo ha hb
    simp only [List.foldl_nil, List.append_nil]
    exact ⟨ha, hb⟩
  | cons repo rest ih =>
    intro pre levels hndn hmem htopo ha hb
    have hfresh : repo.name ∉ pre.map (fun r => r.name) := by
      intro hmem1
      rw [List.map_append] at hndn
      rcases List.nodup_append.mp hndn with ⟨_, _, hdisj⟩
      exact hdisj hmem1 (by simp)
    have hnone0 : levelIdxOf levels repo.name = none := by
      by_contra hc
      exact hfresh ((ha repo.name).mp hc)
    have hfree : ∀ lvl ∈ levels, ∀ r ∈ lvl, r.name ≠ repo.name :=
      (levelIdxOf_none_iff levels repo.name).mp hnone0
    have hprenames : ∀ nm, nm ∈ pre.map (fun r => r.name) → nm ≠ repo.name := by
      intro nm hmem1 he
      exact hfresh (he ▸ hmem1)
    -- stability of all dependency lookups of already-known repos and of `repo`
    have hstab_of : ∀ (r' : RepoConfig), (∀ d ∈ r'.depends_on,
        posOf m.repos d ≠ none → d ∈ pre.map (fun x => x.name)) →
        levelFor (placeRepo levels repo) r' = levelFor levels r' := by
      intro r' hdeps
      unfold levelFor
      have : r'.depends_on.filterMap (levelIdxOf (placeRepo levels repo)) =
          r'.depends_on.filterMap (levelIdxOf levels) := by
        apply List.filterMap_congr
        intro d hd
        by_cases hres : posOf m.repos d = none
        · have hdn : d ∉ pre.map (fun r => r.name) := by
            intro hmem1
            rcases List.mem_map.mp hmem1 with ⟨x, hx, rfl⟩
            exact posOf_none hres x (hmem x (List.mem_append.mpr (Or.inl hx))) rfl
          have hne : repo.name ≠ d := by
            intro he
            exact (posOf_mem_ne_none (hmem repo
              (List.mem_append.mpr (Or.inr (List.mem_cons_self _ _))))) (he ▸ hres)
          rw [levelIdxOf_placeRepo_other levels repo d hne]
        · have hd_pre : d ∈ pre.map (fun x => x.name) := hdeps d hd hres
          exact levelIdxOf_placeRepo_other levels repo d
            (fun he => hfresh (he ▸ hd_pre))
      rw [this]
    have hself : levelIdxOf (placeRepo levels repo) repo.name =
        some (levelFor (placeRepo levels repo) repo) := by
      rw [levelIdxOf_placeRepo_self levels repo hfree]
      rw [hstab_of repo (htopo pre repo rest rfl)]
    have hb' : ∀ r' ∈ pre ++ [repo], levelIdxOf (placeRepo levels repo) r'.name =
        some (levelFor (placeRepo levels repo) r') := by
      intro r' hr'
      rcases List.mem_append.mp hr' with h' | h'
      · rcases List.mem_iff_append.mp h' with ⟨p1, p2, hp⟩
        have hdeps : ∀ d ∈ r'.depends_on, posOf m.repos d ≠ none →
            d ∈ pre.map (fun x => x.name) := by
          intro d hd hres
          have hsplit : pre ++ repo :: rest = p1 ++ r' :: (p2 ++ repo :: rest) := by
            rw [hp]
            simp
          have := htopo p1 r' (p2 ++ repo :: rest) hsplit d hd hres
          rcases List.mem_map.mp this with ⟨x, hx, rfl⟩
          refine List.mem_map.mpr ⟨x, ?_, rfl⟩
          rw [hp]
          exact List.mem_append.mpr (Or.inl hx)
        rw [hstab_of r' hdeps]
        have hrname : r'.name ∈ pre.map (fun r => r.name) :=
          List.mem_map.mpr ⟨r', h', rfl⟩
        rw [levelIdxOf_placeRepo_other levels repo r'.name ((hprenames r'.name hrname).symm)]
        exact hb r' h'
      · simp at h'
        subst h'
        exact hself
    have ha' : ∀ nm, (¬ levelIdxOf (placeRepo levels repo) nm = none) ↔
        nm ∈ (pre ++ [repo]).map (fun r => r.name) := by
      intro nm
      by_cases hnm : nm = repo.name
      · subst hnm
        constructor
        · intro _
          simp
        · intro _
          rw [hself]
          simp
      · rw [levelIdxOf_placeRepo_other levels repo nm (fun he => hnm he.symm)]
        rw [ha nm]
        simp only [List.map_append, List.mem_append]
        constructor
        · intro h'
          exact Or.inl h'
        · intro h'
          rcases h' with h' | h'
          · exact h'
          · simp at h'
            exact absurd h' hnm
    have hassoc : (pre ++ [repo]) ++ rest = pre ++ repo :: rest := by
      simp
    rcases ih (pre ++ [repo]) (placeRepo levels repo)
      (by rw [hassoc]; exact hndn)
      (by rw [hassoc]; exact hmem)
      (by rw [hassoc]; exact htopo)
      ha' hb' with ⟨hA, hB⟩
    rw [hassoc] at hA hB
    simp only [List.foldl_cons]
    exact ⟨hA, hB⟩

theorem placeRepo_no_deps {repo : RepoConfig} (hdeps : repo.depends_on = []) :
    ∀ acc, placeRepo [acc] repo = [acc ++ [repo]] := by
  intro acc
  unfold placeRepo levelFor
  rw [hdeps]
  rfl

theorem placeRepo_nil_no_deps {repo : RepoConfig} (hdeps : repo.depends_on = []) :
    placeRepo [] repo = [[repo]] := by
  unfold placeRepo levelFor
  rw [hdeps]
  rfl

theorem foldl_placeRepo_no_deps :
    ∀ (l : List RepoConfig) (acc : List RepoConfig), (∀ r ∈ l, r.depends_on = []) →
      l.foldl placeRepo [acc] = [acc ++ l] := by
  intro l
  induction l with
  | nil => intro acc _; simp
  | cons r rest ih =>
    intro acc hdeps
    simp only [List.foldl_cons]
    rw [placeRepo_no_deps (hdeps r (List.mem_cons_self _ _))]
    rw [ih (acc ++ [r]) (fun x hx => hdeps x (List.mem_cons_of_mem _ hx))]
    simp

/-- C4: on an acyclic manifest with unique repository names,
`resolve_build_levels` succeeds and (i) assigns every repository the
level `levelFor`, i.e. `1 + max(levels of its resolvable dependencies)`
(0 with none); (ii) levels strictly decrease along every dependency
path, so two repositories in the same level have no dependency path
between them in either direction; (iii) a manifest with no
inter-repository dependencies collapses to exactly one level containing
all repositories. -/
theorem C4_level_assignment (m : WorkspaceManifest)
    (hacyc : ∀ i, ¬ Relation.TransGen (edgeI m.repos) i i)
    (hnd : (m.repos.map (fun r => r.name)).Nodup) :
    ∃ lvls, resolve_build_levels m = .ok lvls ∧
      (∀ r ∈ m.repos, levelIdxOf lvls r.name = some (levelFor lvls r)) ∧
      (∀ i j, Relation.TransGen (edgeI m.repos) i j →
        ∀ L Lj, levelIdxOf lvls ((m.repos.getD i default).name) = some L →
          levelIdxOf lvls ((m.repos.getD j default).name) = some Lj → Lj < L) ∧
      (∀ i j, i < m.repos.length → j < m.repos.length →
        levelIdxOf lvls ((m.repos.getD i default).name) =
          levelIdxOf lvls ((m.repos.getD j default).name) →
        ¬ Relation.TransGen (edgeI m.repos) i j) ∧
      ((∀ r ∈ m.repos, r.depends_on = []) → m.repos ≠ [] →
        ∃ lvl, lvls = [lvl] ∧ (∀ r ∈ m.repos, r ∈ lvl) ∧ (∀ r ∈ lvl, r ∈ m.repos)) := by
  obtain ⟨ordR, hord⟩ : ∃ ordR, resolve_build_order m = .ok ordR := by
    cases h : resolve_build_order_idx m with
    | error e =>
      exfalso
      rcases resolve_idx_err_spec h with ⟨j, hcyc, _⟩
      exact hacyc j hcyc
    | ok ord =>
      refine ⟨ord.map (fun i => m.repos.getD i default), ?_⟩
      unfold resolve_build_order
      rw [h]
  rcases resolve_order_topo m hnd hord with ⟨hndR, hsubR, hallR, htopoR⟩
  have hlv : resolve_build_levels m = .ok (ordR.foldl placeRepo []) := by
    unfold resolve_build_levels
    rw [hord]
  set lvls := ordR.foldl placeRepo [] with hlvls
  rcases assign_invariant m ordR [] []
    (by simpa using hndR)
    (by simpa using hsubR)
    (by simpa using htopoR)
    (by intro nm; simp [levelIdxOf])
    (by intro r hr; cases hr) with ⟨hA, hB⟩
  simp only [List.nil_append] at hA hB
  have hlevel : ∀ r ∈ m.repos, levelIdxOf lvls r.name = some (levelFor lvls r) := by
    intro r hr
    exact hB r (hallR r hr)
  have hedge_lt : ∀ i j, edgeI m.repos i j →
      levelFor lvls (m.repos.getD j default) < levelFor lvls (m.repos.getD i default) := by
    intro i j hedge
    rcases hedge with ⟨d, hd, hpos⟩
    have hj_lt : j < m.repos.length := posOf_some_lt hpos
    have hj_mem : m.repos.getD j default ∈ m.repos := getD_mem _ _ _ hj_lt
    have hdname : (m.repos.getD j default).name = d := posOf_some_name hpos
    have hLj : levelIdxOf lvls d = some (levelFor lvls (m.repos.getD j default)) := by
      rw [← hdname]
      exact hlevel _ hj_mem
    have hmemf : levelFor lvls (m.repos.getD j default) ∈
        ((m.repos.getD i default).depends_on.filterMap (levelIdxOf lvls)) :=
      List.mem_filterMap.mpr ⟨d, hd, hLj⟩
    rcases maxNat?_mem_le hmemf with ⟨mx, hmx, hle⟩
    have hi_eq : levelFor lvls (m.repos.getD i default) = mx + 1 := by
      unfold levelFor
      rw [hmx]
    omega
  have hpath_lt : ∀ i j, Relation.TransGen (edgeI m.repos) i j →
      levelFor lvls (m.repos.getD j default) < levelFor lvls (m.repos.getD i default) := by
    intro i j hpath
    induction hpath with
    | single he => exact hedge_lt _ _ he
    | tail h1 he ih => exact Nat.lt_trans (hedge_lt _ _ he) ih
  have hpath_bounds : ∀ i j, Relation.TransGen (edgeI m.repos) i j →
      i < m.repos.length ∧ j < m.repos.length := by
    intro i j hpath
    constructor
    · rcases Relation.TransGen.head'_iff.mp hpath with ⟨c, hic, _⟩
      exact (edgeI_lt hic).1
    · cases hpath with
      | single he => exact (edgeI_lt he).2
      | tail h1 he => exact (edgeI_lt he).2
  refine ⟨lvls, hlv, hlevel, ?_, ?_, ?_⟩
  · intro i j hpath L Lj hLi hLj
    rcases hpath_bounds i j hpath with ⟨hi_lt, hj_lt⟩
    have hLi' := hlevel _ (getD_mem _ _ default hi_lt)
    have hLj' := hlevel _ (getD_mem _ _ default hj_lt)
    rw [hLi] at hLi'
    rw [hLj] at hLj'
    cases hLi'
    cases hLj'
    exact hpath_lt i j hpath
  · intro i j hi_lt hj_lt heq hpath
    have hLi' := hlevel _ (getD_mem _ _ default hi_lt)
    have hLj' := hlevel _ (getD_mem _ _ default hj_lt)
    rw [heq, hLj'] at hLi'
    have := hpath_lt i j hpath
    have heq2 : levelFor lvls (m.repos.getD j default) =
        levelFor lvls (m.repos.getD i default) := Option.some.inj hLi'
    omega
  · intro hdeps hne
    have hallDeps : ∀ r ∈ ordR, r.depends_on = [] := by
      intro r hr
      exact hdeps r (hsubR r hr)
    cases hordR : ordR with
    | nil =>
      exfalso
      rcases List.exists_mem_of_ne_nil m.repos hne with ⟨r, hr⟩
      have := hallR r hr
      rw [hordR] at this
      cases this
    | cons r0 rest =>
      refine ⟨r0 :: rest, ?_, ?_, ?_⟩
      · rw [hlvls, hordR]
        simp only [List.foldl_cons]
        rw [placeRepo_nil_no_deps (hallDeps r0 (hordR ▸ List.mem_cons_self _ _))]
        rw [foldl_placeRepo_no_deps rest [r0]
          (fun x hx => hallDeps x (hordR ▸ List.mem_cons_of_mem _ hx))]
        simp
      · intro r hr
        have := hallR r hr
        rw [hordR] at this
        exact this
      · intro r hr
        refine hsubR r ?_
        rw [hordR]
        exact hr

/-- Witness for C4 at the crate's A/B/C fixture. -/
theorem C4_level_assignment_witness :
    (∀ i, ¬ Relation.TransGen (edgeI mABC.repos) i i) ∧
    ((mABC.repos.map (fun r => r.name)).Nodup) ∧
    (∃ lvls, resolve_build_levels mABC = .ok lvls ∧
      (∀ r ∈ mABC.repos, levelIdxOf lvls r.name = some (levelFor lvls r)) ∧
      (∀ i j, Relation.TransGen (edgeI mABC.repos) i j →
        ∀ L Lj, levelIdxOf lvls ((mABC.repos.getD i default).name) = some L →
          levelIdxOf lvls ((mABC.repos.getD j default).name) = some Lj → Lj < L) ∧
      (∀ i j, i < mABC.repos.length → j < mABC.repos.length →
        levelIdxOf lvls ((mABC.repos.getD i default).name) =
          levelIdxOf lvls ((mABC.repos.getD j default).name) →
        ¬ Relation.TransGen (edgeI mABC.repos) i j) ∧
      ((∀ r ∈ mABC.repos, r.depends_on = []) → mABC.repos ≠ [] →
        ∃ lvl, lvls = [lvl] ∧ (∀ r ∈ mABC.repos, r ∈ lvl) ∧ (∀ r ∈ lvl, r ∈ mABC.repos))) :=
  ⟨mABC_acyclic, by decide, C4_level_assignment mABC mABC_acyclic (by decide)⟩
